import Mathlib

set_option linter.unusedSectionVars false

/-!
Verification of the stepped Dijkstra engine (dijkstra_sim).

A shallow embedding of the repository's core modules:

* `node.py`   — `NodeState`, the per-node fields used by the algorithm, and
  `Node.reset_algorithm_data`;
* `grid.py`   — the `Grid` container with `set_start` / `set_end` /
  `is_ready_for_pathfinding` / `reset_algorithm_data`;
* `dijkstra.py` — the `DijkstraAlgorithm` engine: constructor, `step`,
  `_reconstruct_path`, `run_complete`, and the step-by-step driver
  `run_dijkstra_step_by_step`.

Python mutates `Node` objects in place; the embedding threads an explicit
state.  Nodes are identified by their coordinate pair (Python object identity
coincides with it: the grid allocates exactly one node per cell), and the
mutable per-node fields (`distance`, `previous`, `state`) live in maps indexed
by node identity.  `float('inf')` becomes `(⊤ : ℕ∞)`; all finite distances the
program manipulates are naturals.

`heapq.heappop` returns a minimum entry of the queue; among entries with equal
first component the order additionally depends on `Node.__lt__` and on the
internal heap layout, which the program never relies on (the spec calls the
tie-break unspecified).  The embedding models the queue as a plain list whose
pop removes the leftmost entry with minimal first component; every theorem
below uses only "the popped key is minimal" and "exactly that entry is
removed", which hold for any heap implementation.
-/

namespace DijkstraSim

/-- `node.py` `NodeState`: the six presentation states of a cell. -/
inductive NodeState : Type
  | EMPTY
  | START
  | END
  | BARRIER
  | VISITED
  | PATH
deriving DecidableEq, Repr

/-- A node identity: the immutable `(row, col)` coordinate pair.  The source
uses Python ints, so coordinates are integers. -/
abbrev Pos : Type := ℤ × ℤ

/-- The graph the engine traverses: the node population and the precomputed,
barrier-filtered adjacency (`node.update_neighbors` fills `self.neighbors`
before a run starts; the engine only reads it). -/
structure Graph (ν : Type) where
  nodes : List ν
  neighbors : ν → List ν

/-- `dijkstra.py` `DijkstraAlgorithm`: the engine's own fields plus the
mutable per-node fields it reads and writes (`distance`, `previous`,
`state`), threaded as maps.  `priority_queue` holds `(distance, node)` pairs;
`visited_nodes` models the Python set (only membership is ever queried). -/
structure Algo (ν : Type) where
  start_node : ν
  end_node : ν
  visited_count : ℕ
  path_length : ℕ
  is_running : Bool
  is_complete : Bool
  path_found : Bool
  dist : ν → ℕ∞
  prev : ν → Option ν
  nstate : ν → NodeState
  priority_queue : List (ℕ∞ × ν)
  visited_nodes : List ν

variable {ν : Type} [DecidableEq ν]

/-- `DijkstraAlgorithm.__init__`: records the endpoints, zeroes the counters
and flags, sets `start_node.distance = 0`, seeds the queue with `(0, start)`
and empties the visited set.  The ambient per-node fields (`dist0`, `prev0`,
`st0`) are whatever the nodes carried when the constructor ran. -/
def mkAlgo (s e : ν) (dist0 : ν → ℕ∞) (prev0 : ν → Option ν)
    (st0 : ν → NodeState) : Algo ν :=
  { start_node := s
    end_node := e
    visited_count := 0
    path_length := 0
    is_running := false
    is_complete := false
    path_found := false
    dist := fun v => if v = s then 0 else dist0 v
    prev := prev0
    nstate := st0
    priority_queue := [((0 : ℕ∞), s)]
    visited_nodes := [] }

/-- `heapq.heappop` on a nonempty queue: returns the leftmost entry with
minimal first component together with the remaining entries. -/
def popMin (e : ℕ∞ × ν) : List (ℕ∞ × ν) → (ℕ∞ × ν) × List (ℕ∞ × ν)
  | [] => (e, [])
  | f :: t =>
    if f.1 < e.1 then
      let r := popMin f t
      (r.1, e :: r.2)
    else
      let r := popMin e t
      (r.1, f :: r.2)

/-- Lines 53–55 of `step`: record the improved distance and predecessor of
`v` and push the new `(distance, node)` pair. -/
def relaxUpd (u v : ν) (a : Algo ν) : Algo ν :=
  { a with
    dist := fun w => if w = v then a.dist u + 1 else a.dist w
    prev := fun w => if w = v then some u else a.prev w
    priority_queue := a.priority_queue ++ [(a.dist u + 1, v)] }

/-- The neighbor loop of `DijkstraAlgorithm.step`: for each neighbor of `u`
not yet visited, compute `new_distance = u.distance + 1` and, if it improves,
apply `relaxUpd`.  `u` is already in `visited_nodes` when this loop runs, so
`a.dist u` is stable across iterations exactly as in the source. -/
def relaxList (u : ν) : List ν → Algo ν → Algo ν
  | [], a => a
  | v :: rest, a =>
    if v ∈ a.visited_nodes then relaxList u rest a
    else
      if a.dist u + 1 < a.dist v then relaxList u rest (relaxUpd u v a)
      else relaxList u rest a

/-- The predecessor walk in `_reconstruct_path`:
`while current is not None: path_nodes.append(current); current = current.previous`.
The Python loop has no bound; the embedding supplies fuel, and every theorem
using it either proves or assumes the walk ends within the fuel. -/
def pathChain (prev : ν → Option ν) : ℕ → Option ν → List ν
  | _, none => []
  | 0, some _ => []
  | fuel + 1, some v => v :: pathChain prev fuel (prev v)

/-- The tagging loop of `_reconstruct_path`:
`for node in path_nodes[1:-1]: node.set_state(NodeState.PATH)`. -/
def paintPath : List ν → Algo ν → Algo ν
  | [], a => a
  | n :: rest, a =>
    paintPath rest
      { a with nstate := fun v => if v = n then NodeState.PATH else a.nstate v }

/-- `DijkstraAlgorithm._reconstruct_path`: bail out unless `path_found`; walk
predecessors from `end_node`; tag the interior of the chain (`path_nodes[1:-1]`)
with `PATH`; set `path_length = len(path_nodes) - 1`.  The fuel
`g.nodes.length + 1` covers every chain that visits pairwise-distinct nodes of
the graph, which is the case in every state the engine can reach. -/
def reconstructPath (g : Graph ν) (a : Algo ν) : Algo ν :=
  if a.path_found = false then a
  else
    let chain := pathChain a.prev (g.nodes.length + 1) (some a.end_node)
    { paintPath ((chain.drop 1).dropLast) a with path_length := chain.length - 1 }

/-- Lines 34–38 of `step`: add the popped node to the visited set, bump
`visited_count`, and tag it `VISITED` unless its state says it is the start
or the end cell (`is_start()` / `is_end()` inspect the state attribute). -/
def visitNode (a : Algo ν) (u : ν) (rest : List (ℕ∞ × ν)) : Algo ν :=
  if a.nstate u ≠ NodeState.START ∧ a.nstate u ≠ NodeState.END then
    { a with
      priority_queue := rest
      visited_nodes := u :: a.visited_nodes
      visited_count := a.visited_count + 1
      nstate := fun v => if v = u then NodeState.VISITED else a.nstate v }
  else
    { a with
      priority_queue := rest
      visited_nodes := u :: a.visited_nodes
      visited_count := a.visited_count + 1 }

/-- `DijkstraAlgorithm.step`.  Returns the new engine state together with the
`(shouldContinue, touchedNode)` pair the source returns. -/
def step (g : Graph ν) (a : Algo ν) : Algo ν × Bool × Option ν :=
  match a.priority_queue, a.is_complete with
  | [], _ => ({ a with is_complete := true, is_running := false }, false, none)
  | _ :: _, true => ({ a with is_complete := true, is_running := false }, false, none)
  | e :: t, false =>
    let pr := popMin e t
    let d := pr.1.1
    let u := pr.1.2
    if a.dist u < d then
      ({ a with priority_queue := pr.2 }, true, none)
    else if u ∈ a.visited_nodes then
      ({ a with priority_queue := pr.2 }, true, none)
    else
      let a2 : Algo ν := visitNode a u pr.2
      if u = a.end_node then
        (reconstructPath g
          { a2 with path_found := true, is_complete := true, is_running := false },
          false, some u)
      else
        (relaxList u (g.neighbors u) a2, true, some u)

/-- Repeated bare `step()` calls (the raw driver of claims C2 and C4). -/
def stepIter (g : Graph ν) : ℕ → Algo ν → Algo ν
  | 0, a => a
  | n + 1, a => stepIter g n (step g a).1

/-- A list is a predecessor chain: each node's `previous` is the next list
element, and the last node has no predecessor. -/
def followsPrev (prev : ν → Option ν) : List ν → Prop
  | [] => True
  | [v] => prev v = none
  | v :: w :: rest => prev v = some w ∧ followsPrev prev (w :: rest)

/-- Termination measure for the step loop: pending queue entries plus the
total neighbor-list length of the not-yet-visited nodes (every fresh visit
pays for all pushes it can ever cause). -/
def stepMeasure (g : Graph ν) (a : Algo ν) : ℕ :=
  a.priority_queue.length +
    (g.nodes.toFinset.filter fun v => v ∉ a.visited_nodes).sum
      fun v => (g.neighbors v).length

/-- Bookkeeping invariant for the termination and counting argument: the
visited set has no duplicates, lives inside the graph, is counted by
`visited_count`, and every queued node belongs to the graph. -/
def countInv (g : Graph ν) (a : Algo ν) : Prop :=
  a.visited_nodes.Nodup ∧
  (∀ v ∈ a.visited_nodes, v ∈ g.nodes) ∧
  (∀ q ∈ a.priority_queue, q.2 ∈ g.nodes) ∧
  a.visited_count = a.visited_nodes.length

/-- The loop of `DijkstraAlgorithm.run_complete`:
`while not self.is_complete: cont, _ = self.step(); ...; if not cont: break`.
The optional `draw_callback` only renders (the spec forbids it from mutating
engine state), so it does not appear in the state transition. -/
def runCompleteLoop (g : Graph ν) : ℕ → Algo ν → Algo ν
  | 0, a => a
  | fuel + 1, a =>
    if a.is_complete then a
    else
      let r := step g a
      if r.2.1 then runCompleteLoop g fuel r.1 else r.1

/-- `DijkstraAlgorithm.run_complete`: sets `is_running = true`, then drives the
loop; its Python return value is the final `path_found`, readable off the
returned state. -/
def run_complete (g : Graph ν) (fuel : ℕ) (a : Algo ν) : Algo ν :=
  runCompleteLoop g fuel { a with is_running := true }

/-- The driving loop of `run_dijkstra_step_by_step`:
`while not algorithm.is_complete: cont, node = algorithm.step(); yield ...; if not cont: break`.
The `yield` hands control to the caller without touching engine state, so the
state transition is the bare loop. -/
def stepByStepLoop (g : Graph ν) : ℕ → Algo ν → Algo ν
  | 0, a => a
  | fuel + 1, a =>
    if a.is_complete then a
    else
      let r := step g a
      if r.2.1 then stepByStepLoop g fuel r.1 else r.1

/-- `run_dijkstra_step_by_step(start, end)` driven to exhaustion: constructs a
fresh engine over the ambient node fields, sets `is_running = true`, and runs
the generator's loop. -/
def runStepByStep (g : Graph ν) (fuel : ℕ) (s e : ν) (dist0 : ν → ℕ∞)
    (prev0 : ν → Option ν) (st0 : ν → NodeState) : Algo ν :=
  stepByStepLoop g fuel { mkAlgo s e dist0 prev0 st0 with is_running := true }

/-- `DijkstraAlgorithm.get_stats`: `path_length` is reported as 0 unless
`path_found`. -/
def getStats (a : Algo ν) : ℕ × ℕ × Bool :=
  (a.visited_count, if a.path_found then a.path_length else 0, a.path_found)

/-! ## The grid graph of the claims

`grid.py` builds a square `rows × rows` board and `node.update_neighbors`
collects, in the fixed direction order `[(-1,0), (1,0), (0,-1), (0,1)]`, the
in-bounds orthogonal neighbors that are not barriers.  Claim C1 speaks of an
`R × C` grid with no barriers, so the bounds are kept as two parameters
(`R = C` recovers the source's square board) and the barrier filter is the
constant-true filter. -/

/-- The direction list of `node.update_neighbors`. -/
def dirs : List Pos := [(-1, 0), (1, 0), (0, -1), (0, 1)]

/-- In-bounds test for an `R × C` board (`0 <= new_row < total_rows` and the
column analogue in the source). -/
def inGrid (R C : ℕ) (p : Pos) : Prop :=
  0 ≤ p.1 ∧ p.1 < (R : ℤ) ∧ 0 ≤ p.2 ∧ p.2 < (C : ℤ)

instance (R C : ℕ) (p : Pos) : Decidable (inGrid R C p) := by
  unfold inGrid; infer_instance

/-- `node.update_neighbors` on a barrier-free `R × C` board. -/
def gridNeighbors (R C : ℕ) (p : Pos) : List Pos :=
  dirs.filterMap fun d =>
    if inGrid R C (p.1 + d.1, p.2 + d.2) then some (p.1 + d.1, p.2 + d.2)
    else none

/-- All cells of the `R × C` board, row-major as `Grid._create_grid` builds
them. -/
def gridNodes (R C : ℕ) : List Pos :=
  (List.range R).flatMap fun (r : ℕ) =>
    (List.range C).map fun (c : ℕ) => ((r : ℤ), (c : ℤ))

/-- The barrier-free `R × C` grid graph with precomputed neighbors. -/
def gridGraph (R C : ℕ) : Graph Pos :=
  { nodes := gridNodes R C, neighbors := gridNeighbors R C }

/-- Manhattan distance from the origin `(0,0)`; for in-grid cells both
coordinates are nonnegative so this is `row + col`. -/
def manhattan (p : Pos) : ℕ :=
  (p.1 + p.2).toNat

/-- The initial node states of the C1 run: start cell `START`, end cell
`END`, everything else `EMPTY` (what the UI establishes before launching the
algorithm). -/
def gridStates (R C : ℕ) : Pos → NodeState := fun p =>
  if p = ((0 : ℤ), (0 : ℤ)) then NodeState.START
  else if p = ((R : ℤ) - 1, (C : ℤ) - 1) then NodeState.END
  else NodeState.EMPTY

/-- The complete C1 run: fresh traversal fields (`distance = ∞`,
`previous = None` — the state `Grid.reset_algorithm_data` guarantees), engine
constructed on `(0,0) → (R-1, C-1)`, driven by `run_complete`. -/
def gridRun (R C fuel : ℕ) : Algo Pos :=
  run_complete (gridGraph R C) fuel
    (mkAlgo ((0 : ℤ), (0 : ℤ)) (((R : ℤ) - 1, (C : ℤ) - 1))
      (fun _ => (⊤ : ℕ∞)) (fun _ => none) (gridStates R C))

/-! ## The grid container (`grid.py`) and node-level reset (`node.py`)

Claims C9 and C10 are about the `Grid` container and `Node`'s reset of its
algorithm fields.  A node is represented by its coordinate pair plus the
fields the modelled operations read or write; the pixel-geometry fields
(`x`, `y`, `width`, `total_rows`) and the `neighbors` cache are never touched
by these operations and are omitted. -/

/-- The per-node record of `node.py` as seen by the grid operations. -/
structure GNode where
  row : ℤ
  col : ℤ
  state : NodeState
  distance : ℕ∞
  previous : Option Pos

/-- `Node.reset_algorithm_data`: a `VISITED` or `PATH` state reverts to
`EMPTY` (any other state is kept); `distance` returns to infinity and
`previous` to `None`. -/
def GNode.reset_algorithm_data (n : GNode) : GNode :=
  { n with
    state :=
      if n.state = NodeState.VISITED ∨ n.state = NodeState.PATH then NodeState.EMPTY
      else n.state
    distance := (⊤ : ℕ∞)
    previous := none }

/-- `grid.py` `Grid`: a square `rows × rows` board.  Cells are addressed by
position; `start_node` / `end_node` hold the position of the current start /
end cell (Python holds the node object itself). -/
structure Grid where
  rows : ℕ
  width : ℕ
  gap : ℕ
  cells : Pos → GNode
  start_node : Option Pos
  end_node : Option Pos

/-- `Grid.__init__` + `_create_grid`: every cell is a fresh `EMPTY` node with
infinite distance and no predecessor; no start or end is designated. -/
def Grid.init (rows width : ℕ) : Grid :=
  { rows := rows
    width := width
    gap := width / rows
    cells := fun p =>
      { row := p.1, col := p.2, state := NodeState.EMPTY
        distance := (⊤ : ℕ∞), previous := none }
    start_node := none
    end_node := none }

/-- `Grid.get_node`: the cell at `(row, col)` when in bounds, else `None`. -/
def Grid.get_node (g : Grid) (r c : ℤ) : Option Pos :=
  if 0 ≤ r ∧ r < (g.rows : ℤ) ∧ 0 ≤ c ∧ c < (g.rows : ℤ) then some (r, c) else none

/-- Overwrite the state of one cell (Python's `node.set_state(...)` through
the shared grid storage). -/
def Grid.setCellState (g : Grid) (p : Pos) (s : NodeState) : Grid :=
  { g with cells := fun q => if q = p then { g.cells p with state := s } else g.cells q }

/-- The demotion step inside `Grid.set_start`:
`if self.start_node: self.start_node.set_state(NodeState.EMPTY)`. -/
def Grid.clearStart (g : Grid) : Grid :=
  match g.start_node with
  | some q => g.setCellState q NodeState.EMPTY
  | none => g

/-- The demotion step inside `Grid.set_end`. -/
def Grid.clearEnd (g : Grid) : Grid :=
  match g.end_node with
  | some q => g.setCellState q NodeState.EMPTY
  | none => g

/-- `Grid.set_start`: requires an in-bounds cell that is `EMPTY` or already
the `START` cell; demotes the previous start (if any) to `EMPTY`, promotes the
cell, records it, and reports success. -/
def Grid.set_start (g : Grid) (r c : ℤ) : Grid × Bool :=
  match g.get_node r c with
  | none => (g, false)
  | some p =>
    if (g.cells p).state = NodeState.EMPTY ∨ (g.cells p).state = NodeState.START then
      ({ g.clearStart.setCellState p NodeState.START with start_node := some p }, true)
    else (g, false)

/-- `Grid.set_end`: the mirror image of `set_start` for the `END` cell. -/
def Grid.set_end (g : Grid) (r c : ℤ) : Grid × Bool :=
  match g.get_node r c with
  | none => (g, false)
  | some p =>
    if (g.cells p).state = NodeState.EMPTY ∨ (g.cells p).state = NodeState.END then
      ({ g.clearEnd.setCellState p NodeState.END with end_node := some p }, true)
    else (g, false)

/-- `Grid.is_ready_for_pathfinding`: both endpoints designated. -/
def Grid.is_ready_for_pathfinding (g : Grid) : Bool :=
  g.start_node.isSome && g.end_node.isSome

/-- `Grid.reset_algorithm_data`: applies `Node.reset_algorithm_data` to every
cell; the `start_node` / `end_node` references are untouched. -/
def Grid.reset_algorithm_data (g : Grid) : Grid :=
  { g with cells := fun p => (g.cells p).reset_algorithm_data }

/-- A start/end editing operation on the grid (the operations claim C9
quantifies over). -/
inductive GridOp : Type
  | setStart (r c : ℤ)
  | setEnd (r c : ℤ)

/-- Apply one editing operation (discarding the reported Bool, as the UI does
for these calls). -/
def applyOp (g : Grid) : GridOp → Grid
  | GridOp.setStart r c => (g.set_start r c).1
  | GridOp.setEnd r c => (g.set_end r c).1

/-- Apply a sequence of editing operations left to right. -/
def applyOps (ops : List GridOp) (g : Grid) : Grid :=
  ops.foldl applyOp g

/-- The grid bookkeeping invariant: a cell is in the `START` state exactly
when `start_node` points at it, and likewise for `END`. -/
def gridWF (g : Grid) : Prop :=
  (∀ p : Pos, (g.cells p).state = NodeState.START ↔ g.start_node = some p) ∧
  (∀ p : Pos, (g.cells p).state = NodeState.END ↔ g.end_node = some p)

/-- The monotone staircase path from the origin to `p`: first walk down the
rows, then across the columns.  `stair p j` is the `j`-th cell of that path;
for `j ≤ manhattan p` consecutive cells are grid neighbors. -/
def stair (p : Pos) (j : ℕ) : Pos :=
  if (j : ℤ) ≤ p.1 then ((j : ℤ), 0) else (p.1, (j : ℤ) - p.1)

/-- The facts that hold of a running engine on the barrier-free `R × C` grid
while it is not yet complete (the "active" part of the Dijkstra invariant).

* `hE`: every edge out of a visited node has been relaxed;
* `hF`: every unvisited node with a finite distance has a frontier entry
  recording exactly its current distance;
* `hU`: visited nodes carry their true (Manhattan) distance;
* `hUg`: visited nodes are grid cells;
* `hM`: no frontier key is below the distance of any visited node
  (keys are popped in nondecreasing order);
* `hH`: the start is visited or its initial entry is still queued. -/
structure GridActive (R C : ℕ) (a : Algo Pos) : Prop where
  hE : ∀ u ∈ a.visited_nodes, ∀ v ∈ gridNeighbors R C u,
    a.dist v ≤ a.dist u + 1
  hF : ∀ v : Pos, v ∉ a.visited_nodes → a.dist v ≠ ⊤ →
    (a.dist v, v) ∈ a.priority_queue
  hU : ∀ w ∈ a.visited_nodes, a.dist w = (manhattan w : ℕ∞)
  hUg : ∀ w ∈ a.visited_nodes, inGrid R C w
  hM : ∀ q ∈ a.priority_queue, ∀ w ∈ a.visited_nodes, a.dist w ≤ q.1
  hH : ((0 : ℤ), (0 : ℤ)) ∈ a.visited_nodes ∨
    ((0 : ℕ∞), ((0 : ℤ), (0 : ℤ))) ∈ a.priority_queue

/-- The full invariant of the C1 run on the barrier-free `R × C` grid with
start `(0,0)` and end `(R-1, C-1)`.

* `hB`: queue keys never undercut current distances (keys are upper bounds);
* `hB3`: queue keys are finite;
* `hCl`: queued nodes are grid cells;
* `hC`: every finite-distance node is the start or was relaxed from a
  visited predecessor one unit closer;
* `hL`: distances never undercut the Manhattan lower bound;
* `hG`: `path_found` holds exactly when the end node is visited;
* `hG1`: `path_found` implies `is_complete`;
* `hAct`: while incomplete, the active invariant holds;
* `hDone`: once complete, the path was found with the Manhattan length. -/
structure GridInv (R C : ℕ) (a : Algo Pos) : Prop where
  hstart : a.start_node = ((0 : ℤ), (0 : ℤ))
  hend : a.end_node = ((R : ℤ) - 1, (C : ℤ) - 1)
  hds : a.dist ((0 : ℤ), (0 : ℤ)) = 0
  hps : a.prev ((0 : ℤ), (0 : ℤ)) = none
  hB : ∀ q ∈ a.priority_queue, a.dist q.2 ≤ q.1
  hB3 : ∀ q ∈ a.priority_queue, q.1 ≠ (⊤ : ℕ∞)
  hCl : ∀ q ∈ a.priority_queue, inGrid R C q.2
  hC : ∀ v : Pos, a.dist v ≠ ⊤ → v = ((0 : ℤ), (0 : ℤ)) ∨
    ∃ u, a.prev v = some u ∧ a.dist v = a.dist u + 1 ∧
      u ∈ a.visited_nodes ∧ a.dist u ≠ ⊤
  hL : ∀ v : Pos, (manhattan v : ℕ∞) ≤ a.dist v
  hG : a.path_found = true ↔ a.end_node ∈ a.visited_nodes
  hG1 : a.path_found = true → a.is_complete = true
  hAct : a.is_complete = false → GridActive R C a
  hDone : a.is_complete = true →
    a.path_found = true ∧ a.path_length = (R - 1) + (C - 1)

/-! ## Lemmas about the priority-queue pop -/

theorem popMin_perm (e : ℕ∞ × ν) (t : List (ℕ∞ × ν)) :
    List.Perm (e :: t) ((popMin e t).1 :: (popMin e t).2) := by
  induction t generalizing e with
  | nil => simp [popMin]
  | cons f t ih =>
    by_cases h : f.1 < e.1
    · simp only [popMin, if_pos h]
      exact ((List.Perm.cons e (ih f)).trans (List.Perm.swap _ _ _))
    · simp only [popMin, if_neg h]
      exact (List.Perm.swap _ _ _).trans ((List.Perm.cons f (ih e)).trans
        (List.Perm.swap _ _ _))

theorem popMin_fst_mem (e : ℕ∞ × ν) (t : List (ℕ∞ × ν)) :
    (popMin e t).1 ∈ e :: t :=
  (popMin_perm e t).mem_iff.mpr (List.mem_cons_self _ _)

theorem popMin_min (e : ℕ∞ × ν) (t : List (ℕ∞ × ν)) :
    ∀ q ∈ e :: t, (popMin e t).1.1 ≤ q.1 := by
  induction t generalizing e with
  | nil =>
    intro q hq
    rcases List.mem_singleton.mp hq with rfl
    simp [popMin]
  | cons f t ih =>
    intro q hq
    by_cases h : f.1 < e.1
    · simp only [popMin, if_pos h]
      rcases List.mem_cons.mp hq with rfl | hq'
      · exact le_trans (ih f f (List.mem_cons_self _ _)) h.le
      · exact ih f q hq'
    · simp only [popMin, if_neg h]
      rcases List.mem_cons.mp hq with rfl | hq'
      · exact ih q q (List.mem_cons_self _ _)
      · rcases List.mem_cons.mp hq' with rfl | hq''
        · exact le_trans (ih e e (List.mem_cons_self _ _)) (not_lt.mp h)
        · exact ih e q (List.mem_cons.mpr (Or.inr hq''))

theorem popMin_mem_iff (e : ℕ∞ × ν) (t : List (ℕ∞ × ν)) (q : ℕ∞ × ν) :
    q ∈ e :: t ↔ q = (popMin e t).1 ∨ q ∈ (popMin e t).2 := by
  rw [(popMin_perm e t).mem_iff, List.mem_cons]

theorem popMin_rest_subset (e : ℕ∞ × ν) (t : List (ℕ∞ × ν)) :
    ∀ q ∈ (popMin e t).2, q ∈ e :: t := fun q hq =>
  (popMin_mem_iff e t q).mpr (Or.inr hq)

theorem mem_popMin_rest_of_ne (e : ℕ∞ × ν) (t : List (ℕ∞ × ν)) (q : ℕ∞ × ν)
    (hq : q ∈ e :: t) (hne : q ≠ (popMin e t).1) : q ∈ (popMin e t).2 :=
  ((popMin_mem_iff e t q).mp hq).resolve_left hne

/-! ## Lemmas about `visitNode` -/

theorem visitNode_fields (a : Algo ν) (u : ν) (rest : List (ℕ∞ × ν)) :
    (visitNode a u rest).start_node = a.start_node ∧
    (visitNode a u rest).end_node = a.end_node ∧
    (visitNode a u rest).visited_count = a.visited_count + 1 ∧
    (visitNode a u rest).path_length = a.path_length ∧
    (visitNode a u rest).is_running = a.is_running ∧
    (visitNode a u rest).is_complete = a.is_complete ∧
    (visitNode a u rest).path_found = a.path_found ∧
    (visitNode a u rest).dist = a.dist ∧
    (visitNode a u rest).prev = a.prev ∧
    (visitNode a u rest).priority_queue = rest ∧
    (visitNode a u rest).visited_nodes = u :: a.visited_nodes := by
  unfold visitNode
  split <;> simp

theorem visitNode_dist (a : Algo ν) (u : ν) (rest : List (ℕ∞ × ν)) :
    (visitNode a u rest).dist = a.dist := (visitNode_fields a u rest).2.2.2.2.2.2.2.1

theorem visitNode_prev (a : Algo ν) (u : ν) (rest : List (ℕ∞ × ν)) :
    (visitNode a u rest).prev = a.prev := (visitNode_fields a u rest).2.2.2.2.2.2.2.2.1

theorem visitNode_pq (a : Algo ν) (u : ν) (rest : List (ℕ∞ × ν)) :
    (visitNode a u rest).priority_queue = rest :=
  (visitNode_fields a u rest).2.2.2.2.2.2.2.2.2.1

theorem visitNode_visited (a : Algo ν) (u : ν) (rest : List (ℕ∞ × ν)) :
    (visitNode a u rest).visited_nodes = u :: a.visited_nodes :=
  (visitNode_fields a u rest).2.2.2.2.2.2.2.2.2.2

/-! ## Lemmas about `paintPath` -/

theorem paintPath_fields (l : List ν) (a : Algo ν) :
    (paintPath l a).start_node = a.start_node ∧
    (paintPath l a).end_node = a.end_node ∧
    (paintPath l a).visited_count = a.visited_count ∧
    (paintPath l a).path_length = a.path_length ∧
    (paintPath l a).is_running = a.is_running ∧
    (paintPath l a).is_complete = a.is_complete ∧
    (paintPath l a).path_found = a.path_found ∧
    (paintPath l a).dist = a.dist ∧
    (paintPath l a).prev = a.prev ∧
    (paintPath l a).priority_queue = a.priority_queue ∧
    (paintPath l a).visited_nodes = a.visited_nodes := by
  induction l generalizing a with
  | nil => simp [paintPath]
  | cons n rest ih => simpa [paintPath] using ih _

theorem paintPath_nstate (l : List ν) (a : Algo ν) (v : ν) :
    (paintPath l a).nstate v = if v ∈ l then NodeState.PATH else a.nstate v := by
  induction l generalizing a with
  | nil => simp [paintPath]
  | cons n rest ih =>
    simp only [paintPath, ih]
    by_cases hv : v ∈ rest
    · simp [hv, List.mem_cons]
    · by_cases hn : v = n <;> simp [hv, hn, List.mem_cons]

/-! ## Lemmas about `relaxList` -/

theorem relaxUpd_dist (u v : ν) (a : Algo ν) (w : ν) :
    (relaxUpd u v a).dist w = if w = v then a.dist u + 1 else a.dist w := rfl

theorem relaxUpd_prev (u v : ν) (a : Algo ν) (w : ν) :
    (relaxUpd u v a).prev w = if w = v then some u else a.prev w := rfl

theorem relaxUpd_pq (u v : ν) (a : Algo ν) :
    (relaxUpd u v a).priority_queue = a.priority_queue ++ [(a.dist u + 1, v)] := rfl

theorem relaxUpd_visited (u v : ν) (a : Algo ν) :
    (relaxUpd u v a).visited_nodes = a.visited_nodes := rfl

theorem relaxUpd_dist_u (u v : ν) (a : Algo ν) (hne : u ≠ v) :
    (relaxUpd u v a).dist u = a.dist u := by
  simp [relaxUpd_dist, hne]

theorem relaxList_fields (u : ν) (l : List ν) (a : Algo ν) :
    (relaxList u l a).start_node = a.start_node ∧
    (relaxList u l a).end_node = a.end_node ∧
    (relaxList u l a).visited_count = a.visited_count ∧
    (relaxList u l a).path_length = a.path_length ∧
    (relaxList u l a).is_running = a.is_running ∧
    (relaxList u l a).is_complete = a.is_complete ∧
    (relaxList u l a).path_found = a.path_found ∧
    (relaxList u l a).nstate = a.nstate ∧
    (relaxList u l a).visited_nodes = a.visited_nodes := by
  induction l generalizing a with
  | nil => simp [relaxList]
  | cons v rest ih =>
    unfold relaxList
    split
    · exact ih a
    · split
      · simpa [relaxUpd] using ih (relaxUpd u v a)
      · exact ih a

theorem relaxList_dist_le (u : ν) (l : List ν) (a : Algo ν) (w : ν) :
    (relaxList u l a).dist w ≤ a.dist w := by
  induction l generalizing a with
  | nil => simp [relaxList]
  | cons v rest ih =>
    unfold relaxList
    split
    · exact ih a
    · split
      · rename_i hv hlt
        refine le_trans (ih (relaxUpd u v a)) ?_
        rw [relaxUpd_dist]
        by_cases hw : w = v
        · subst hw; simp [le_of_lt hlt]
        · simp [hw]
      · exact ih a

theorem relaxList_frozen (u : ν) (l : List ν) (a : Algo ν) (w : ν)
    (hw : w ∈ a.visited_nodes) :
    (relaxList u l a).dist w = a.dist w ∧ (relaxList u l a).prev w = a.prev w := by
  induction l generalizing a with
  | nil => simp [relaxList]
  | cons v rest ih =>
    unfold relaxList
    split
    · exact ih a hw
    · rename_i hv
      split
      · have hwv : w ≠ v := fun h => hv (h ▸ hw)
        have h2 := ih (relaxUpd u v a) (by simpa [relaxUpd_visited] using hw)
        rw [relaxUpd_dist, relaxUpd_prev] at h2
        simpa [hwv] using h2
      · exact ih a hw

theorem relaxList_pq (u : ν) (l : List ν) (a : Algo ν) (hu : u ∈ a.visited_nodes) :
    ∃ added : List (ℕ∞ × ν),
      (relaxList u l a).priority_queue = a.priority_queue ++ added ∧
      added.length ≤ l.length ∧
      ∀ q ∈ added, q.1 = a.dist u + 1 ∧ q.2 ∈ l ∧ q.2 ∉ a.visited_nodes := by
  induction l generalizing a with
  | nil => exact ⟨[], by simp [relaxList]⟩
  | cons v rest ih =>
    unfold relaxList
    split
    · obtain ⟨added, h1, h2, h3⟩ := ih a hu
      exact ⟨added, h1, Nat.le_succ_of_le h2, fun q hq =>
        ⟨(h3 q hq).1, List.mem_cons.mpr (Or.inr (h3 q hq).2.1), (h3 q hq).2.2⟩⟩
    · rename_i hv
      split
      · have huv : u ≠ v := fun h => hv (h ▸ hu)
        obtain ⟨added, h1, h2, h3⟩ := ih (relaxUpd u v a)
          (by simpa [relaxUpd_visited] using hu)
        refine ⟨(a.dist u + 1, v) :: added, ?_, by simpa using h2, ?_⟩
        · rw [h1, relaxUpd_pq, List.append_assoc]
          rfl
        · intro q hq
          rcases List.mem_cons.mp hq with rfl | hq'
          · exact ⟨rfl, List.mem_cons_self _ _, hv⟩
          · obtain ⟨hq1, hq2, hq3⟩ := h3 q hq'
            rw [relaxUpd_dist_u u v a huv] at hq1
            exact ⟨hq1, List.mem_cons.mpr (Or.inr hq2),
              by simpa [relaxUpd_visited] using hq3⟩
      · obtain ⟨added, h1, h2, h3⟩ := ih a hu
        exact ⟨added, h1, Nat.le_succ_of_le h2, fun q hq =>
          ⟨(h3 q hq).1, List.mem_cons.mpr (Or.inr (h3 q hq).2.1), (h3 q hq).2.2⟩⟩

theorem relaxList_relaxed (u : ν) (l : List ν) (a : Algo ν)
    (hu : u ∈ a.visited_nodes) :
    ∀ v ∈ l, v ∉ a.visited_nodes → (relaxList u l a).dist v ≤ a.dist u + 1 := by
  induction l generalizing a with
  | nil => simp
  | cons w rest ih =>
    intro v hv hnv
    unfold relaxList
    split
    · rename_i hw
      rcases List.mem_cons.mp hv with rfl | hv'
      · exact absurd hw hnv
      · exact ih a hu v hv' hnv
    · rename_i hw
      split
      · rename_i hlt
        have huw : u ≠ w := fun h => hw (h ▸ hu)
        rcases List.mem_cons.mp hv with rfl | hv'
        · refine le_trans (relaxList_dist_le u rest (relaxUpd u v a) v) ?_
          simp [relaxUpd_dist]
        · have := ih (relaxUpd u w a) (by simpa [relaxUpd_visited] using hu) v hv'
            (by simpa [relaxUpd_visited] using hnv)
          rwa [relaxUpd_dist_u u w a huw] at this
      · rename_i hge
        rcases List.mem_cons.mp hv with rfl | hv'
        · exact le_trans (relaxList_dist_le u rest a v) (not_lt.mp hge)
        · exact ih a hu v hv' hnv

theorem relaxList_dist_char (u : ν) (l : List ν) (a : Algo ν)
    (hu : u ∈ a.visited_nodes) (w : ν) :
    ((relaxList u l a).dist w = a.dist w ∧ (relaxList u l a).prev w = a.prev w) ∨
    ((relaxList u l a).prev w = some u ∧ (relaxList u l a).dist w = a.dist u + 1 ∧
      w ∈ l ∧ w ∉ a.visited_nodes ∧ (relaxList u l a).dist w < a.dist w) := by
  induction l generalizing a with
  | nil => simp [relaxList]
  | cons v rest ih =>
    unfold relaxList
    split
    · rcases ih a hu with h | h
      · exact Or.inl h
      · exact Or.inr ⟨h.1, h.2.1, List.mem_cons.mpr (Or.inr h.2.2.1), h.2.2.2⟩
    · rename_i hv
      split
      · rename_i hlt
        have huv : u ≠ v := fun h => hv (h ▸ hu)
        rcases ih (relaxUpd u v a) (by simpa [relaxUpd_visited] using hu) with h | h
        · rw [relaxUpd_dist, relaxUpd_prev] at h
          by_cases hwv : w = v
          · subst hwv
            simp only [eq_self_iff_true, if_true] at h
            refine Or.inr ⟨h.2, h.1, List.mem_cons_self _ _, hv, ?_⟩
            rw [h.1]
            exact hlt
          · simp only [if_neg hwv] at h
            exact Or.inl h
        · obtain ⟨h1, h2, h3, h4, h5⟩ := h
          rw [relaxUpd_dist_u u v a huv] at h2
          rw [relaxUpd_visited] at h4
          rw [relaxUpd_dist] at h5
          refine Or.inr ⟨h1, h2, List.mem_cons.mpr (Or.inr h3), h4, ?_⟩
          by_cases hwv : w = v
          · subst hwv
            simp only [eq_self_iff_true, if_true] at h5
            exact lt_trans h5 hlt
          · simpa [hwv] using h5
      · rcases ih a hu with h | h
        · exact Or.inl h
        · exact Or.inr ⟨h.1, h.2.1, List.mem_cons.mpr (Or.inr h.2.2.1), h.2.2.2⟩

/-! ## Lemmas about `reconstructPath` and the step branches -/

theorem reconstructPath_fields (g : Graph ν) (a : Algo ν) :
    (reconstructPath g a).start_node = a.start_node ∧
    (reconstructPath g a).end_node = a.end_node ∧
    (reconstructPath g a).visited_count = a.visited_count ∧
    (reconstructPath g a).is_running = a.is_running ∧
    (reconstructPath g a).is_complete = a.is_complete ∧
    (reconstructPath g a).path_found = a.path_found ∧
    (reconstructPath g a).dist = a.dist ∧
    (reconstructPath g a).prev = a.prev ∧
    (reconstructPath g a).priority_queue = a.priority_queue ∧
    (reconstructPath g a).visited_nodes = a.visited_nodes := by
  unfold reconstructPath
  split
  · simp
  · simp [paintPath_fields]

theorem step_of_complete (g : Graph ν) (a : Algo ν) (h : a.is_complete = true) :
    step g a = ({ a with is_complete := true, is_running := false }, false, none) := by
  rcases hpq : a.priority_queue with _ | ⟨e, t⟩ <;> simp [step, hpq, h]

theorem step_of_empty (g : Graph ν) (a : Algo ν) (h : a.priority_queue = []) :
    step g a = ({ a with is_complete := true, is_running := false }, false, none) := by
  rcases hc : a.is_complete <;> simp [step, h, hc]

theorem step_stale (g : Graph ν) (a : Algo ν) (e : ℕ∞ × ν) (t : List (ℕ∞ × ν))
    (hpq : a.priority_queue = e :: t) (hc : a.is_complete = false)
    (hd : a.dist (popMin e t).1.2 < (popMin e t).1.1) :
    step g a = ({ a with priority_queue := (popMin e t).2 }, true, none) := by
  simp [step, hpq, hc, hd]

theorem step_seen (g : Graph ν) (a : Algo ν) (e : ℕ∞ × ν) (t : List (ℕ∞ × ν))
    (hpq : a.priority_queue = e :: t) (hc : a.is_complete = false)
    (hd : ¬ a.dist (popMin e t).1.2 < (popMin e t).1.1)
    (hv : (popMin e t).1.2 ∈ a.visited_nodes) :
    step g a = ({ a with priority_queue := (popMin e t).2 }, true, none) := by
  simp [step, hpq, hc, hd, hv]

theorem step_fresh_end (g : Graph ν) (a : Algo ν) (e : ℕ∞ × ν) (t : List (ℕ∞ × ν))
    (hpq : a.priority_queue = e :: t) (hc : a.is_complete = false)
    (hd : ¬ a.dist (popMin e t).1.2 < (popMin e t).1.1)
    (hv : (popMin e t).1.2 ∉ a.visited_nodes)
    (he : (popMin e t).1.2 = a.end_node) :
    step g a =
      (reconstructPath g
        { visitNode a (popMin e t).1.2 (popMin e t).2 with
          path_found := true, is_complete := true, is_running := false },
        false, some (popMin e t).1.2) := by
  have hd' := hd
  have hv' := hv
  rw [he] at hd' hv'
  simp [step, hpq, hc, hd', hv', he]

theorem step_fresh_relax (g : Graph ν) (a : Algo ν) (e : ℕ∞ × ν) (t : List (ℕ∞ × ν))
    (hpq : a.priority_queue = e :: t) (hc : a.is_complete = false)
    (hd : ¬ a.dist (popMin e t).1.2 < (popMin e t).1.1)
    (hv : (popMin e t).1.2 ∉ a.visited_nodes)
    (he : (popMin e t).1.2 ≠ a.end_node) :
    step g a =
      (relaxList (popMin e t).1.2 (g.neighbors (popMin e t).1.2)
        (visitNode a (popMin e t).1.2 (popMin e t).2),
        true, some (popMin e t).1.2) := by
  simp [step, hpq, hc, hd, hv, he]

/-- One disjunction covering every branch of `step`, for downstream case
analyses. -/
theorem step_cases (g : Graph ν) (a : Algo ν) :
    (step g a).1 = { a with is_complete := true, is_running := false } ∨
    (∃ e t, a.priority_queue = e :: t ∧ a.is_complete = false ∧
      (step g a).1 = { a with priority_queue := (popMin e t).2 }) ∨
    (∃ e t, a.priority_queue = e :: t ∧ a.is_complete = false ∧
      (popMin e t).1.2 ∉ a.visited_nodes ∧
      ¬ a.dist (popMin e t).1.2 < (popMin e t).1.1 ∧
      (((popMin e t).1.2 = a.end_node ∧
        (step g a).1 = reconstructPath g
          { visitNode a (popMin e t).1.2 (popMin e t).2 with
            path_found := true, is_complete := true, is_running := false }) ∨
       ((popMin e t).1.2 ≠ a.end_node ∧
        (step g a).1 = relaxList (popMin e t).1.2 (g.neighbors (popMin e t).1.2)
          (visitNode a (popMin e t).1.2 (popMin e t).2)))) := by
  by_cases hcT : a.is_complete = true
  · exact Or.inl (by rw [step_of_complete g a hcT])
  have hc : a.is_complete = false := by revert hcT; cases a.is_complete <;> simp
  by_cases hpqE : a.priority_queue = []
  · exact Or.inl (by rw [step_of_empty g a hpqE])
  obtain ⟨e, t, hpq⟩ := List.exists_cons_of_ne_nil hpqE
  by_cases hd : a.dist (popMin e t).1.2 < (popMin e t).1.1
  · exact Or.inr (Or.inl ⟨e, t, hpq, hc, by rw [step_stale g a e t hpq hc hd]⟩)
  by_cases hv : (popMin e t).1.2 ∈ a.visited_nodes
  · exact Or.inr (Or.inl ⟨e, t, hpq, hc, by rw [step_seen g a e t hpq hc hd hv]⟩)
  by_cases he : (popMin e t).1.2 = a.end_node
  · exact Or.inr (Or.inr ⟨e, t, hpq, hc, hv, hd,
      Or.inl ⟨he, by rw [step_fresh_end g a e t hpq hc hd hv he]⟩⟩)
  · exact Or.inr (Or.inr ⟨e, t, hpq, hc, hv, hd,
      Or.inr ⟨he, by rw [step_fresh_relax g a e t hpq hc hd hv he]⟩⟩)

/-! ## Single-field corollaries -/

theorem reconstructPath_start (g : Graph ν) (a : Algo ν) :
    (reconstructPath g a).start_node = a.start_node := (reconstructPath_fields g a).1

theorem reconstructPath_end (g : Graph ν) (a : Algo ν) :
    (reconstructPath g a).end_node = a.end_node := (reconstructPath_fields g a).2.1

theorem reconstructPath_count (g : Graph ν) (a : Algo ν) :
    (reconstructPath g a).visited_count = a.visited_count :=
  (reconstructPath_fields g a).2.2.1

theorem reconstructPath_running (g : Graph ν) (a : Algo ν) :
    (reconstructPath g a).is_running = a.is_running :=
  (reconstructPath_fields g a).2.2.2.1

theorem reconstructPath_complete (g : Graph ν) (a : Algo ν) :
    (reconstructPath g a).is_complete = a.is_complete :=
  (reconstructPath_fields g a).2.2.2.2.1

theorem reconstructPath_found (g : Graph ν) (a : Algo ν) :
    (reconstructPath g a).path_found = a.path_found :=
  (reconstructPath_fields g a).2.2.2.2.2.1

theorem reconstructPath_dist (g : Graph ν) (a : Algo ν) :
    (reconstructPath g a).dist = a.dist :=
  (reconstructPath_fields g a).2.2.2.2.2.2.1

theorem reconstructPath_prev (g : Graph ν) (a : Algo ν) :
    (reconstructPath g a).prev = a.prev :=
  (reconstructPath_fields g a).2.2.2.2.2.2.2.1

theorem reconstructPath_pq (g : Graph ν) (a : Algo ν) :
    (reconstructPath g a).priority_queue = a.priority_queue :=
  (reconstructPath_fields g a).2.2.2.2.2.2.2.2.1

theorem reconstructPath_visited (g : Graph ν) (a : Algo ν) :
    (reconstructPath g a).visited_nodes = a.visited_nodes :=
  (reconstructPath_fields g a).2.2.2.2.2.2.2.2.2

theorem visitNode_start (a : Algo ν) (u : ν) (rest : List (ℕ∞ × ν)) :
    (visitNode a u rest).start_node = a.start_node := (visitNode_fields a u rest).1

theorem visitNode_end (a : Algo ν) (u : ν) (rest : List (ℕ∞ × ν)) :
    (visitNode a u rest).end_node = a.end_node := (visitNode_fields a u rest).2.1

theorem visitNode_count (a : Algo ν) (u : ν) (rest : List (ℕ∞ × ν)) :
    (visitNode a u rest).visited_count = a.visited_count + 1 :=
  (visitNode_fields a u rest).2.2.1

theorem visitNode_found (a : Algo ν) (u : ν) (rest : List (ℕ∞ × ν)) :
    (visitNode a u rest).path_found = a.path_found :=
  (visitNode_fields a u rest).2.2.2.2.2.2.1

theorem relaxList_start (u : ν) (l : List ν) (a : Algo ν) :
    (relaxList u l a).start_node = a.start_node := (relaxList_fields u l a).1

theorem relaxList_end (u : ν) (l : List ν) (a : Algo ν) :
    (relaxList u l a).end_node = a.end_node := (relaxList_fields u l a).2.1

theorem relaxList_count (u : ν) (l : List ν) (a : Algo ν) :
    (relaxList u l a).visited_count = a.visited_count := (relaxList_fields u l a).2.2.1

theorem relaxList_running (u : ν) (l : List ν) (a : Algo ν) :
    (relaxList u l a).is_running = a.is_running := (relaxList_fields u l a).2.2.2.2.1

theorem relaxList_complete (u : ν) (l : List ν) (a : Algo ν) :
    (relaxList u l a).is_complete = a.is_complete :=
  (relaxList_fields u l a).2.2.2.2.2.1

theorem relaxList_found (u : ν) (l : List ν) (a : Algo ν) :
    (relaxList u l a).path_found = a.path_found :=
  (relaxList_fields u l a).2.2.2.2.2.2.1

theorem relaxList_visited (u : ν) (l : List ν) (a : Algo ν) :
    (relaxList u l a).visited_nodes = a.visited_nodes :=
  (relaxList_fields u l a).2.2.2.2.2.2.2.2

/-! ## Generic step lemmas -/

theorem step_start_node (g : Graph ν) (a : Algo ν) :
    (step g a).1.start_node = a.start_node := by
  rcases step_cases g a with h | ⟨e, t, _, _, h⟩ | ⟨e, t, _, _, _, _, ⟨_, h⟩ | ⟨_, h⟩⟩ <;>
    rw [h]
  · rw [reconstructPath_start]
    exact visitNode_start a _ _
  · rw [relaxList_start]
    exact visitNode_start a _ _

theorem step_end_node (g : Graph ν) (a : Algo ν) :
    (step g a).1.end_node = a.end_node := by
  rcases step_cases g a with h | ⟨e, t, _, _, h⟩ | ⟨e, t, _, _, _, _, ⟨_, h⟩ | ⟨_, h⟩⟩ <;>
    rw [h]
  · rw [reconstructPath_end]
    exact visitNode_end a _ _
  · rw [relaxList_end]
    exact visitNode_end a _ _

theorem step_visited_mono (g : Graph ν) (a : Algo ν) :
    ∀ v ∈ a.visited_nodes, v ∈ (step g a).1.visited_nodes := by
  intro v hv
  rcases step_cases g a with h | ⟨e, t, _, _, h⟩ | ⟨e, t, _, _, _, _, ⟨_, h⟩ | ⟨_, h⟩⟩ <;>
    rw [h]
  · exact hv
  · exact hv
  · rw [reconstructPath_visited]
    show v ∈ (visitNode a _ _).visited_nodes
    rw [visitNode_visited]
    exact List.mem_cons.mpr (Or.inr hv)
  · rw [relaxList_visited, visitNode_visited]
    exact List.mem_cons.mpr (Or.inr hv)

theorem step_dist_frozen (g : Graph ν) (a : Algo ν) (v : ν)
    (hv : v ∈ a.visited_nodes) : (step g a).1.dist v = a.dist v := by
  rcases step_cases g a with h | ⟨e, t, _, _, h⟩ | ⟨e, t, _, _, _, _, ⟨_, h⟩ | ⟨_, h⟩⟩ <;>
    rw [h]
  · rw [reconstructPath_dist]
    show (visitNode a _ _).dist v = a.dist v
    rw [visitNode_dist]
  · have hv2 : v ∈ (visitNode a (popMin e t).1.2 (popMin e t).2).visited_nodes := by
      rw [visitNode_visited]; exact List.mem_cons.mpr (Or.inr hv)
    rw [(relaxList_frozen _ _ _ v hv2).1, visitNode_dist]

theorem step_dist_le (g : Graph ν) (a : Algo ν) (v : ν) :
    (step g a).1.dist v ≤ a.dist v := by
  rcases step_cases g a with h | ⟨e, t, _, _, h⟩ | ⟨e, t, _, _, _, _, ⟨_, h⟩ | ⟨_, h⟩⟩ <;>
    rw [h]
  · rw [reconstructPath_dist]
    show (visitNode a _ _).dist v ≤ a.dist v
    rw [visitNode_dist]
  · refine le_trans (relaxList_dist_le _ _ _ v) ?_
    rw [visitNode_dist]

/-! ## Loop equality (run_complete vs the generator's driving loop) -/

theorem stepLoop_eq_runLoop (g : Graph ν) :
    ∀ fuel (a : Algo ν), stepByStepLoop g fuel a = runCompleteLoop g fuel a := by
  intro fuel
  induction fuel with
  | zero => intro a; rfl
  | succ fuel ih =>
    intro a
    by_cases hc : a.is_complete
    · simp [stepByStepLoop, runCompleteLoop, hc]
    · simp [stepByStepLoop, runCompleteLoop, hc, ih]

/-! ## Claim theorems: C3, C4, C5, C6, C7 -/

/-- C3: for every graph, endpoints and identically initialized node state,
driving a fresh engine through the generator's repeated `step()` loop yields
the same final `visited_count`, `path_length` and `path_found` as
`run_complete()` on an equivalently constructed engine (any common step
budget). -/
theorem step_drive_eq_run_complete (g : Graph ν) (fuel : ℕ) (s e : ν)
    (dist0 : ν → ℕ∞) (prev0 : ν → Option ν) (st0 : ν → NodeState) :
    (runStepByStep g fuel s e dist0 prev0 st0).visited_count =
      (run_complete g fuel (mkAlgo s e dist0 prev0 st0)).visited_count ∧
    (runStepByStep g fuel s e dist0 prev0 st0).path_length =
      (run_complete g fuel (mkAlgo s e dist0 prev0 st0)).path_length ∧
    (runStepByStep g fuel s e dist0 prev0 st0).path_found =
      (run_complete g fuel (mkAlgo s e dist0 prev0 st0)).path_found := by
  unfold runStepByStep run_complete
  rw [stepLoop_eq_runLoop]
  exact ⟨rfl, rfl, rfl⟩

/-- C4: once a node has been added to the visited set, its `distance` is
never modified by any later sequence of `step()` calls. -/
theorem visited_distance_frozen (g : Graph ν) (v : ν) (n : ℕ) :
    ∀ a : Algo ν, v ∈ a.visited_nodes → (stepIter g n a).dist v = a.dist v := by
  induction n with
  | zero => intro a _; rfl
  | succ n ih =>
    intro a hv
    show (stepIter g n (step g a).1).dist v = a.dist v
    rw [ih (step g a).1 (step_visited_mono g a v hv), step_dist_frozen g a v hv]

/-- Witness for C4 on a concrete 1×2 grid: after one step the start node is
visited, and three further steps leave its distance unchanged. -/
theorem visited_distance_frozen_witness :
    ((0 : ℤ), (0 : ℤ)) ∈ ((step (gridGraph 1 2)
        (mkAlgo ((0 : ℤ), (0 : ℤ)) ((0 : ℤ), (1 : ℤ)) (fun _ => (⊤ : ℕ∞))
          (fun _ => none) (gridStates 1 2))).1).visited_nodes ∧
    (stepIter (gridGraph 1 2) 3 ((step (gridGraph 1 2)
        (mkAlgo ((0 : ℤ), (0 : ℤ)) ((0 : ℤ), (1 : ℤ)) (fun _ => (⊤ : ℕ∞))
          (fun _ => none) (gridStates 1 2))).1)).dist ((0 : ℤ), (0 : ℤ)) =
      ((step (gridGraph 1 2)
        (mkAlgo ((0 : ℤ), (0 : ℤ)) ((0 : ℤ), (1 : ℤ)) (fun _ => (⊤ : ℕ∞))
          (fun _ => none) (gridStates 1 2))).1).dist ((0 : ℤ), (0 : ℤ)) :=
  ⟨by decide,
    visited_distance_frozen (gridGraph 1 2) ((0 : ℤ), (0 : ℤ)) 3 _ (by decide)⟩

/-- C5 counterexample: the constructor performs no endpoint validation.
Called with `start == end` it raises nothing: it returns a fully initialized
engine and has already mutated the start node's distance to 0 — contradicting
"fails with an `InvalidEndpoints` error and no partial engine is
constructed". -/
theorem construct_start_eq_end_succeeds :
    (mkAlgo ((0 : ℤ), (0 : ℤ)) ((0 : ℤ), (0 : ℤ)) (fun _ => (⊤ : ℕ∞))
      (fun _ => none) (fun _ => NodeState.EMPTY)).dist ((0 : ℤ), (0 : ℤ)) = 0 ∧
    (mkAlgo ((0 : ℤ), (0 : ℤ)) ((0 : ℤ), (0 : ℤ)) (fun _ => (⊤ : ℕ∞))
      (fun _ => none) (fun _ => NodeState.EMPTY)).priority_queue =
      [((0 : ℕ∞), ((0 : ℤ), (0 : ℤ)))] ∧
    (mkAlgo ((0 : ℤ), (0 : ℤ)) ((0 : ℤ), (0 : ℤ)) (fun _ => (⊤ : ℕ∞))
      (fun _ => none) (fun _ => NodeState.EMPTY)).is_complete = false ∧
    (mkAlgo ((0 : ℤ), (0 : ℤ)) ((0 : ℤ), (0 : ℤ)) (fun _ => (⊤ : ℕ∞))
      (fun _ => none) (fun _ => NodeState.EMPTY)).path_found = false := by
  refine ⟨?_, rfl, rfl, rfl⟩
  simp [mkAlgo]

/-- C5 amended: `DijkstraAlgorithm.__init__` performs no endpoint validation
at all.  For every pair of endpoints — including `start == end` or nodes
belonging to no graph — it succeeds, setting `start.distance = 0`, seeding
the frontier with `(0, start)`, clearing the visited set and zeroing every
counter and flag. -/
theorem mkAlgo_total_no_validation (s e : ν) (dist0 : ν → ℕ∞)
    (prev0 : ν → Option ν) (st0 : ν → NodeState) :
    (mkAlgo s e dist0 prev0 st0).start_node = s ∧
    (mkAlgo s e dist0 prev0 st0).end_node = e ∧
    (∀ v, (mkAlgo s e dist0 prev0 st0).dist v = if v = s then 0 else dist0 v) ∧
    (mkAlgo s e dist0 prev0 st0).prev = prev0 ∧
    (mkAlgo s e dist0 prev0 st0).nstate = st0 ∧
    (mkAlgo s e dist0 prev0 st0).priority_queue = [((0 : ℕ∞), s)] ∧
    (mkAlgo s e dist0 prev0 st0).visited_nodes = [] ∧
    (mkAlgo s e dist0 prev0 st0).visited_count = 0 ∧
    (mkAlgo s e dist0 prev0 st0).path_length = 0 ∧
    (mkAlgo s e dist0 prev0 st0).is_running = false ∧
    (mkAlgo s e dist0 prev0 st0).is_complete = false ∧
    (mkAlgo s e dist0 prev0 st0).path_found = false :=
  ⟨rfl, rfl, fun _ => rfl, rfl, rfl, rfl, rfl, rfl, rfl, rfl, rfl, rfl⟩

/-- C7: whenever `step()` pops a stale entry (recorded distance exceeding the
node's current distance) or a node already in the visited set, it returns
`(true, none)` without changing any node's distance, predecessor or state and
without incrementing `visited_count`; no error is surfaced (the function
returns normally). -/
theorem stale_or_seen_pop_noop (g : Graph ν) (a : Algo ν) (e : ℕ∞ × ν)
    (t : List (ℕ∞ × ν)) (hpq : a.priority_queue = e :: t)
    (hc : a.is_complete = false)
    (h : a.dist (popMin e t).1.2 < (popMin e t).1.1 ∨
      (popMin e t).1.2 ∈ a.visited_nodes) :
    (step g a).2 = (true, none) ∧
    (step g a).1.dist = a.dist ∧
    (step g a).1.prev = a.prev ∧
    (step g a).1.nstate = a.nstate ∧
    (step g a).1.visited_count = a.visited_count := by
  by_cases hd : a.dist (popMin e t).1.2 < (popMin e t).1.1
  · rw [step_stale g a e t hpq hc hd]
    exact ⟨rfl, rfl, rfl, rfl, rfl⟩
  · have hv : (popMin e t).1.2 ∈ a.visited_nodes := h.resolve_left hd
    rw [step_seen g a e t hpq hc hd hv]
    exact ⟨rfl, rfl, rfl, rfl, rfl⟩

/-- Witness for C7: a concrete engine state holding one stale queue entry
(`(5, (0,0))` while the node's current distance is 1): the step is a silent
no-op returning `(true, none)`. -/
theorem stale_or_seen_pop_noop_witness :
    (step (gridGraph 1 2)
      { start_node := ((0 : ℤ), (0 : ℤ)), end_node := ((0 : ℤ), (1 : ℤ)),
        visited_count := 1, path_length := 0, is_running := true,
        is_complete := false, path_found := false,
        dist := fun v => if v = ((0 : ℤ), (0 : ℤ)) then (1 : ℕ∞) else ⊤,
        prev := fun _ => none, nstate := fun _ => NodeState.EMPTY,
        priority_queue := [((5 : ℕ∞), ((0 : ℤ), (0 : ℤ)))],
        visited_nodes := [] }).2 = (true, none) :=
  (stale_or_seen_pop_noop (gridGraph 1 2)
    { start_node := ((0 : ℤ), (0 : ℤ)), end_node := ((0 : ℤ), (1 : ℤ)),
      visited_count := 1, path_length := 0, is_running := true,
      is_complete := false, path_found := false,
      dist := fun v => if v = ((0 : ℤ), (0 : ℤ)) then (1 : ℕ∞) else ⊤,
      prev := fun _ => none, nstate := fun _ => NodeState.EMPTY,
      priority_queue := [((5 : ℕ∞), ((0 : ℤ), (0 : ℤ)))],
      visited_nodes := [] }
    ((5 : ℕ∞), ((0 : ℤ), (0 : ℤ))) [] rfl rfl (Or.inl (by decide))).1

/-- C6: when `step()` pops the end node as a fresh, not-yet-visited entry it
sets `path_found`, `is_complete`, clears `is_running`, performs path
reconstruction on the just-updated state, and returns `(false, endNode)`;
and conversely every `(false, some _)` return arises exactly this way, with
the touched node equal to the end node. -/
theorem end_pop_terminal_success (g : Graph ν) (a : Algo ν) :
    (∀ e t, a.priority_queue = e :: t → a.is_complete = false →
      ¬ a.dist (popMin e t).1.2 < (popMin e t).1.1 →
      (popMin e t).1.2 ∉ a.visited_nodes →
      (popMin e t).1.2 = a.end_node →
      (step g a).2 = (false, some a.end_node) ∧
      (step g a).1.path_found = true ∧
      (step g a).1.is_complete = true ∧
      (step g a).1.is_running = false ∧
      (step g a).1 = reconstructPath g
        { visitNode a (popMin e t).1.2 (popMin e t).2 with
          path_found := true, is_complete := true, is_running := false }) ∧
    (∀ w, (step g a).2 = (false, some w) →
      ∃ e t, a.priority_queue = e :: t ∧ a.is_complete = false ∧
        ¬ a.dist (popMin e t).1.2 < (popMin e t).1.1 ∧
        (popMin e t).1.2 ∉ a.visited_nodes ∧
        (popMin e t).1.2 = a.end_node ∧ w = a.end_node) := by
  constructor
  · intro e t hpq hc hd hv he
    rw [step_fresh_end g a e t hpq hc hd hv he]
    refine ⟨by rw [he], ?_, ?_, ?_, rfl⟩
    · rw [reconstructPath_found]
    · rw [reconstructPath_complete]
    · rw [reconstructPath_running]
  · intro w hw
    by_cases hcT : a.is_complete = true
    · rw [step_of_complete g a hcT] at hw
      exact absurd hw (by simp)
    have hc : a.is_complete = false := by revert hcT; cases a.is_complete <;> simp
    by_cases hpqE : a.priority_queue = []
    · rw [step_of_empty g a hpqE] at hw
      exact absurd hw (by simp)
    obtain ⟨e, t, hpq⟩ := List.exists_cons_of_ne_nil hpqE
    by_cases hd : a.dist (popMin e t).1.2 < (popMin e t).1.1
    · rw [step_stale g a e t hpq hc hd] at hw
      exact absurd hw (by simp)
    by_cases hv : (popMin e t).1.2 ∈ a.visited_nodes
    · rw [step_seen g a e t hpq hc hd hv] at hw
      exact absurd hw (by simp)
    by_cases he : (popMin e t).1.2 = a.end_node
    · rw [step_fresh_end g a e t hpq hc hd hv he] at hw
      refine ⟨e, t, hpq, hc, hd, hv, he, ?_⟩
      have hw2 : (popMin e t).1.2 = w := by
        have := congrArg (fun p : Bool × Option ν => p.2) hw
        simpa using this
      exact hw2.symm.trans he
    · rw [step_fresh_relax g a e t hpq hc hd hv he] at hw
      exact absurd hw (by simp)

/-- Witness for C6 on the 1×1 grid (start cell equal to end cell): the very
first step pops the end node fresh and signals terminal success. -/
theorem end_pop_terminal_success_witness :
    (step (gridGraph 1 1)
      (mkAlgo ((0 : ℤ), (0 : ℤ)) (((1 : ℕ) : ℤ) - 1, ((1 : ℕ) : ℤ) - 1)
        (fun _ => (⊤ : ℕ∞)) (fun _ => none) (gridStates 1 1))).2 =
      (false, some ((mkAlgo ((0 : ℤ), (0 : ℤ)) (((1 : ℕ) : ℤ) - 1, ((1 : ℕ) : ℤ) - 1)
        (fun _ => (⊤ : ℕ∞)) (fun _ => none) (gridStates 1 1)).end_node)) ∧
    ((step (gridGraph 1 1)
      (mkAlgo ((0 : ℤ), (0 : ℤ)) (((1 : ℕ) : ℤ) - 1, ((1 : ℕ) : ℤ) - 1)
        (fun _ => (⊤ : ℕ∞)) (fun _ => none) (gridStates 1 1))).1).path_found = true := by
  have h := (end_pop_terminal_success (gridGraph 1 1)
    (mkAlgo ((0 : ℤ), (0 : ℤ)) (((1 : ℕ) : ℤ) - 1, ((1 : ℕ) : ℤ) - 1)
      (fun _ => (⊤ : ℕ∞)) (fun _ => none) (gridStates 1 1))).1
    ((0 : ℕ∞), ((0 : ℤ), (0 : ℤ))) [] rfl rfl (by decide) (by decide) (by decide)
  exact ⟨h.1, h.2.1⟩

/-! ## Grid invariant lemmas (claims C9, C10) -/

theorem gridWF_init (rows width : ℕ) : gridWF (Grid.init rows width) := by
  constructor <;> intro p <;> simp [Grid.init]

theorem clearStart_fields (g : Grid) :
    g.clearStart.start_node = g.start_node ∧
    g.clearStart.end_node = g.end_node ∧
    ∀ q, (g.clearStart.cells q).state =
      if g.start_node = some q then NodeState.EMPTY else (g.cells q).state := by
  unfold Grid.clearStart
  rcases hs0 : g.start_node with _ | s0
  · refine ⟨hs0, rfl, fun q => ?_⟩
    simp
  · refine ⟨hs0, rfl, fun q => ?_⟩
    simp only [Grid.setCellState]
    by_cases hq : q = s0
    · subst hq
      simp
    · have hne : ¬(some s0 = some q) := fun h => hq (Option.some_injective _ h).symm
      simp [hq, hne]

theorem clearEnd_fields (g : Grid) :
    g.clearEnd.start_node = g.start_node ∧
    g.clearEnd.end_node = g.end_node ∧
    ∀ q, (g.clearEnd.cells q).state =
      if g.end_node = some q then NodeState.EMPTY else (g.cells q).state := by
  unfold Grid.clearEnd
  rcases he0 : g.end_node with _ | e0
  · refine ⟨rfl, he0, fun q => ?_⟩
    simp
  · refine ⟨rfl, he0, fun q => ?_⟩
    simp only [Grid.setCellState]
    by_cases hq : q = e0
    · subst hq
      simp
    · have hne : ¬(some e0 = some q) := fun h => hq (Option.some_injective _ h).symm
      simp [hq, hne]

theorem set_start_char (g : Grid) (r c : ℤ) (p : Pos)
    (hn : g.get_node r c = some p)
    (hcond : (g.cells p).state = NodeState.EMPTY ∨
      (g.cells p).state = NodeState.START) :
    (g.set_start r c).1.start_node = some p ∧
    (g.set_start r c).1.end_node = g.end_node ∧
    ∀ q, ((g.set_start r c).1.cells q).state =
      if q = p then NodeState.START
      else if g.start_node = some q then NodeState.EMPTY
      else (g.cells q).state := by
  obtain ⟨hc1, hc2, hc3⟩ := clearStart_fields g
  simp only [Grid.set_start, hn]
  rw [if_pos hcond]
  refine ⟨rfl, hc2, fun q => ?_⟩
  simp only [Grid.setCellState]
  by_cases hq : q = p
  · subst hq
    simp
  · simp only [if_neg hq]
    exact hc3 q

theorem set_end_char (g : Grid) (r c : ℤ) (p : Pos)
    (hn : g.get_node r c = some p)
    (hcond : (g.cells p).state = NodeState.EMPTY ∨
      (g.cells p).state = NodeState.END) :
    (g.set_end r c).1.end_node = some p ∧
    (g.set_end r c).1.start_node = g.start_node ∧
    ∀ q, ((g.set_end r c).1.cells q).state =
      if q = p then NodeState.END
      else if g.end_node = some q then NodeState.EMPTY
      else (g.cells q).state := by
  obtain ⟨hc1, hc2, hc3⟩ := clearEnd_fields g
  simp only [Grid.set_end, hn]
  rw [if_pos hcond]
  refine ⟨rfl, hc1, fun q => ?_⟩
  simp only [Grid.setCellState]
  by_cases hq : q = p
  · subst hq
    simp
  · simp only [if_neg hq]
    exact hc3 q

theorem gridWF_set_start (g : Grid) (r c : ℤ) (hg : gridWF g) :
    gridWF (g.set_start r c).1 := by
  obtain ⟨hs, he⟩ := hg
  rcases hn : g.get_node r c with _ | p
  · have hgs : g.set_start r c = (g, false) := by simp [Grid.set_start, hn]
    rw [hgs]
    exact ⟨hs, he⟩
  by_cases hcond : (g.cells p).state = NodeState.EMPTY ∨
      (g.cells p).state = NodeState.START
  · obtain ⟨h1, h2, h3⟩ := set_start_char g r c p hn hcond
    constructor
    · intro q
      rw [h3 q, h1]
      by_cases hq : q = p
      · subst hq
        simp
      · simp only [if_neg hq]
        by_cases hq0 : g.start_node = some q
        · simp only [if_pos hq0]
          constructor
          · intro hfalse
            cases hfalse
          · intro hsome
            exact absurd (Option.some_injective _ hsome).symm hq
        · simp only [if_neg hq0]
          rw [hs q]
          constructor
          · intro h'
            exact absurd h' hq0
          · intro hsome
            exact absurd (Option.some_injective _ hsome).symm hq
    · intro q
      rw [h3 q, h2]
      by_cases hq : q = p
      · subst hq
        simp only [if_pos rfl]
        constructor
        · intro hfalse
          cases hfalse
        · intro hsome
          have hq2 := (he q).mpr hsome
          rcases hcond with h | h <;> rw [h] at hq2 <;> cases hq2
      · simp only [if_neg hq]
        by_cases hq0 : g.start_node = some q
        · simp only [if_pos hq0]
          constructor
          · intro hfalse
            cases hfalse
          · intro hsome
            have hstq := (hs q).mpr hq0
            have hetq := (he q).mpr hsome
            rw [hstq] at hetq
            cases hetq
        · simp only [if_neg hq0]
          exact he q
  · have hgs : g.set_start r c = (g, false) := by
      simp only [Grid.set_start, hn]
      rw [if_neg hcond]
    rw [hgs]
    exact ⟨hs, he⟩

theorem gridWF_set_end (g : Grid) (r c : ℤ) (hg : gridWF g) :
    gridWF (g.set_end r c).1 := by
  obtain ⟨hs, he⟩ := hg
  rcases hn : g.get_node r c with _ | p
  · have hgs : g.set_end r c = (g, false) := by simp [Grid.set_end, hn]
    rw [hgs]
    exact ⟨hs, he⟩
  by_cases hcond : (g.cells p).state = NodeState.EMPTY ∨
      (g.cells p).state = NodeState.END
  · obtain ⟨h1, h2, h3⟩ := set_end_char g r c p hn hcond
    constructor
    · intro q
      rw [h3 q, h2]
      by_cases hq : q = p
      · subst hq
        simp only [if_pos rfl]
        constructor
        · intro hfalse
          cases hfalse
        · intro hsome
          have hq2 := (hs q).mpr hsome
          rcases hcond with h | h <;> rw [h] at hq2 <;> cases hq2
      · simp only [if_neg hq]
        by_cases hq0 : g.end_node = some q
        · simp only [if_pos hq0]
          constructor
          · intro hfalse
            cases hfalse
          · intro hsome
            have hstq := (hs q).mpr hsome
            have hetq := (he q).mpr hq0
            rw [hstq] at hetq
            cases hetq
        · simp only [if_neg hq0]
          exact hs q
    · intro q
      rw [h3 q, h1]
      by_cases hq : q = p
      · subst hq
        simp
      · simp only [if_neg hq]
        by_cases hq0 : g.end_node = some q
        · simp only [if_pos hq0]
          constructor
          · intro hfalse
            cases hfalse
          · intro hsome
            exact absurd (Option.some_injective _ hsome).symm hq
        · simp only [if_neg hq0]
          rw [he q]
          constructor
          · intro h'
            exact absurd h' hq0
          · intro hsome
            exact absurd (Option.some_injective _ hsome).symm hq
  · have hgs : g.set_end r c = (g, false) := by
      simp only [Grid.set_end, hn]
      rw [if_neg hcond]
    rw [hgs]
    exact ⟨hs, he⟩

theorem gridWF_applyOps (ops : List GridOp) (g : Grid) (hg : gridWF g) :
    gridWF (applyOps ops g) := by
  induction ops generalizing g with
  | nil => exact hg
  | cons op rest ih =>
    show gridWF (applyOps rest (applyOp g op))
    refine ih _ ?_
    rcases op with ⟨r, c⟩ | ⟨r, c⟩
    · exact gridWF_set_start g r c hg
    · exact gridWF_set_end g r c hg

/-- C9 counterexample: a freshly constructed `Grid` has no start cell and no
end cell at all, so "each grid instance has exactly one start node and
exactly one end node at any time" already fails at construction time. -/
theorem fresh_grid_has_no_start :
    (Grid.init 2 100).start_node = none ∧
    (Grid.init 2 100).end_node = none ∧
    ¬(∃ p : Pos, ((Grid.init 2 100).cells p).state = NodeState.START) ∧
    ¬(∃ p : Pos, ((Grid.init 2 100).cells p).state = NodeState.END) := by
  refine ⟨rfl, rfl, ?_, ?_⟩ <;> rintro ⟨p, hp⟩ <;> simp [Grid.init] at hp

/-- C9 amended: after any sequence of `set_start` / `set_end` operations on a
fresh grid there is at most one `START` cell and at most one `END` cell
(exactly one as soon as the corresponding setter has succeeded, since
`start_node` / `end_node` point at that unique cell and a new designation
demotes the previous holder), and a run may start
(`is_ready_for_pathfinding`) only when both are set, in which case they are
distinct cells. -/
theorem grid_start_end_invariant (rows width : ℕ) (ops : List GridOp) :
    (∀ p, ((applyOps ops (Grid.init rows width)).cells p).state = NodeState.START ↔
      (applyOps ops (Grid.init rows width)).start_node = some p) ∧
    (∀ p, ((applyOps ops (Grid.init rows width)).cells p).state = NodeState.END ↔
      (applyOps ops (Grid.init rows width)).end_node = some p) ∧
    (∀ p q, ((applyOps ops (Grid.init rows width)).cells p).state = NodeState.START →
      ((applyOps ops (Grid.init rows width)).cells q).state = NodeState.START → p = q) ∧
    (∀ p q, ((applyOps ops (Grid.init rows width)).cells p).state = NodeState.END →
      ((applyOps ops (Grid.init rows width)).cells q).state = NodeState.END → p = q) ∧
    ((applyOps ops (Grid.init rows width)).is_ready_for_pathfinding = true →
      ∃ p q, (applyOps ops (Grid.init rows width)).start_node = some p ∧
        (applyOps ops (Grid.init rows width)).end_node = some q ∧ p ≠ q) := by
  obtain ⟨hs, he⟩ := gridWF_applyOps ops (Grid.init rows width)
    (gridWF_init rows width)
  refine ⟨hs, he, ?_, ?_, ?_⟩
  · intro p q hp hq
    have h1 := (hs p).mp hp
    have h2 := (hs q).mp hq
    rw [h1] at h2
    exact Option.some_injective _ h2
  · intro p q hp hq
    have h1 := (he p).mp hp
    have h2 := (he q).mp hq
    rw [h1] at h2
    exact Option.some_injective _ h2
  · intro hready
    unfold Grid.is_ready_for_pathfinding at hready
    rcases hsn : (applyOps ops (Grid.init rows width)).start_node with _ | p
    · rw [hsn] at hready
      simp at hready
    rcases hen : (applyOps ops (Grid.init rows width)).end_node with _ | q
    · rw [hsn, hen] at hready
      simp at hready
    refine ⟨p, q, rfl, rfl, ?_⟩
    intro hpq
    subst hpq
    have h1 := (hs p).mpr hsn
    have h2 := (he p).mpr hen
    rw [h1] at h2
    cases h2

/-- Witness for C9's amended claim: after `set_start (0,0)` then
`set_end (1,1)` on a fresh 2×2 grid the grid is ready and the designated
cells are distinct. -/
theorem grid_start_end_invariant_witness :
    (applyOps [GridOp.setStart 0 0, GridOp.setEnd 1 1]
      (Grid.init 2 100)).is_ready_for_pathfinding = true ∧
    ∃ p q, (applyOps [GridOp.setStart 0 0, GridOp.setEnd 1 1]
        (Grid.init 2 100)).start_node = some p ∧
      (applyOps [GridOp.setStart 0 0, GridOp.setEnd 1 1]
        (Grid.init 2 100)).end_node = some q ∧ p ≠ q :=
  ⟨by decide,
    (grid_start_end_invariant 2 100 [GridOp.setStart 0 0, GridOp.setEnd 1 1]).2.2.2.2
      (by decide)⟩

/-- C10: `reset_algorithm_data` resets `distance` to infinity and
`previous` to `None` on every node, turns a `VISITED` or `PATH` state back to
`EMPTY`, leaves a `START`, `END` or `BARRIER` (or `EMPTY`) state and the
node's coordinates unchanged; consequently the grid-level reset preserves
which cells are start, end, and barriers, and the grid's `start_node` /
`end_node` references. -/
theorem reset_algorithm_data_spec (row col : ℤ) (d : ℕ∞) (pv : Option Pos)
    (g : Grid) (p : Pos) :
    (∀ st : NodeState,
      (GNode.reset_algorithm_data ⟨row, col, st, d, pv⟩).distance = ⊤ ∧
      (GNode.reset_algorithm_data ⟨row, col, st, d, pv⟩).previous = none ∧
      (GNode.reset_algorithm_data ⟨row, col, st, d, pv⟩).row = row ∧
      (GNode.reset_algorithm_data ⟨row, col, st, d, pv⟩).col = col) ∧
    (GNode.reset_algorithm_data ⟨row, col, NodeState.VISITED, d, pv⟩).state =
      NodeState.EMPTY ∧
    (GNode.reset_algorithm_data ⟨row, col, NodeState.PATH, d, pv⟩).state =
      NodeState.EMPTY ∧
    (GNode.reset_algorithm_data ⟨row, col, NodeState.EMPTY, d, pv⟩).state =
      NodeState.EMPTY ∧
    (GNode.reset_algorithm_data ⟨row, col, NodeState.START, d, pv⟩).state =
      NodeState.START ∧
    (GNode.reset_algorithm_data ⟨row, col, NodeState.END, d, pv⟩).state =
      NodeState.END ∧
    (GNode.reset_algorithm_data ⟨row, col, NodeState.BARRIER, d, pv⟩).state =
      NodeState.BARRIER ∧
    (((g.reset_algorithm_data).cells p).state = NodeState.START ↔
      (g.cells p).state = NodeState.START) ∧
    (((g.reset_algorithm_data).cells p).state = NodeState.END ↔
      (g.cells p).state = NodeState.END) ∧
    (((g.reset_algorithm_data).cells p).state = NodeState.BARRIER ↔
      (g.cells p).state = NodeState.BARRIER) ∧
    ((g.reset_algorithm_data).cells p).distance = ⊤ ∧
    ((g.reset_algorithm_data).cells p).previous = none ∧
    (g.reset_algorithm_data).start_node = g.start_node ∧
    (g.reset_algorithm_data).end_node = g.end_node := by
  refine ⟨?_, rfl, rfl, rfl, rfl, rfl, rfl, ?_, ?_, ?_, rfl, rfl, rfl, rfl⟩
  · intro st
    cases st <;> exact ⟨rfl, rfl, rfl, rfl⟩
  all_goals
    show ((g.cells p).reset_algorithm_data).state = _ ↔ _
    unfold GNode.reset_algorithm_data
    rcases hst : (g.cells p).state <;> simp [hst]

/-! ## Claim C8: path reconstruction -/

theorem pathChain_none (prev : ν → Option ν) (fuel : ℕ) :
    pathChain prev fuel (none : Option ν) = [] := by
  cases fuel <;> rfl

theorem pathChain_followsPrev (prev : ν → Option ν) :
    ∀ fuel (v : ν), (fun o => Option.bind o prev)^[fuel] (some v) = none →
      followsPrev prev (pathChain prev fuel (some v)) := by
  intro fuel
  induction fuel with
  | zero =>
    intro v h
    simp at h
  | succ fuel ih =>
    intro v h
    rw [Function.iterate_succ_apply] at h
    have h2 : (fun o => Option.bind o prev)^[fuel] (prev v) = none := by
      simpa using h
    show followsPrev prev (v :: pathChain prev fuel (prev v))
    rcases hp : prev v with _ | w
    · rw [hp] at h2
      rw [pathChain_none]
      exact hp
    · rw [hp] at h2
      cases fuel with
      | zero => simp at h2
      | succ f =>
        show followsPrev prev (v :: w :: pathChain prev f (prev w))
        exact ⟨hp, ih w h2⟩

/-- C8: when path reconstruction runs (`path_found` set) on a state whose
predecessor walk from the end node terminates, the walked chain starts at the
end node and follows predecessor links to a node with no predecessor;
`path_length` is set to the number of nodes in that chain minus one, and the
presentation state of exactly the interior nodes of the chain (the chain
without its first and last element) is set to `PATH`, every other node
keeping its previous state. -/
theorem reconstruct_path_spec (g : Graph ν) (a : Algo ν)
    (hpf : a.path_found = true)
    (hstop : (fun o => Option.bind o a.prev)^[g.nodes.length + 1]
      (some a.end_node) = none) :
    followsPrev a.prev (pathChain a.prev (g.nodes.length + 1) (some a.end_node)) ∧
    (pathChain a.prev (g.nodes.length + 1) (some a.end_node)).head? =
      some a.end_node ∧
    (reconstructPath g a).path_length =
      (pathChain a.prev (g.nodes.length + 1) (some a.end_node)).length - 1 ∧
    ∀ v, (reconstructPath g a).nstate v =
      if v ∈ ((pathChain a.prev (g.nodes.length + 1)
          (some a.end_node)).drop 1).dropLast
      then NodeState.PATH else a.nstate v := by
  refine ⟨pathChain_followsPrev a.prev _ _ hstop, rfl, ?_, ?_⟩
  · unfold reconstructPath
    rw [hpf]
    rfl
  · intro v
    unfold reconstructPath
    rw [hpf]
    show (paintPath _ a).nstate v = _
    rw [paintPath_nstate]

/-- Witness for C8: a state whose predecessor chain from the end `(2,0)` is
`(2,0) → (1,0) → (0,0)`; reconstruction sets `path_length = 2` and paints
exactly the interior node `(1,0)`, overriding its prior `VISITED` tag. -/
theorem reconstruct_path_spec_witness :
    (reconstructPath (gridGraph 3 1)
      { start_node := ((0 : ℤ), (0 : ℤ)), end_node := ((2 : ℤ), (0 : ℤ)),
        visited_count := 3, path_length := 0, is_running := false,
        is_complete := true, path_found := true,
        dist := fun p => if p = ((0 : ℤ), (0 : ℤ)) then 0
          else if p = ((1 : ℤ), (0 : ℤ)) then 1
          else if p = ((2 : ℤ), (0 : ℤ)) then 2 else ⊤,
        prev := fun p => if p = ((2 : ℤ), (0 : ℤ)) then some ((1 : ℤ), (0 : ℤ))
          else if p = ((1 : ℤ), (0 : ℤ)) then some ((0 : ℤ), (0 : ℤ)) else none,
        nstate := fun p => if p = ((1 : ℤ), (0 : ℤ)) then NodeState.VISITED
          else NodeState.EMPTY,
        priority_queue := [], visited_nodes := [] }).path_length = 2 ∧
    (reconstructPath (gridGraph 3 1)
      { start_node := ((0 : ℤ), (0 : ℤ)), end_node := ((2 : ℤ), (0 : ℤ)),
        visited_count := 3, path_length := 0, is_running := false,
        is_complete := true, path_found := true,
        dist := fun p => if p = ((0 : ℤ), (0 : ℤ)) then 0
          else if p = ((1 : ℤ), (0 : ℤ)) then 1
          else if p = ((2 : ℤ), (0 : ℤ)) then 2 else ⊤,
        prev := fun p => if p = ((2 : ℤ), (0 : ℤ)) then some ((1 : ℤ), (0 : ℤ))
          else if p = ((1 : ℤ), (0 : ℤ)) then some ((0 : ℤ), (0 : ℤ)) else none,
        nstate := fun p => if p = ((1 : ℤ), (0 : ℤ)) then NodeState.VISITED
          else NodeState.EMPTY,
        priority_queue := [], visited_nodes := [] }).nstate ((1 : ℤ), (0 : ℤ)) =
      NodeState.PATH := by
  have h := reconstruct_path_spec (gridGraph 3 1)
    { start_node := ((0 : ℤ), (0 : ℤ)), end_node := ((2 : ℤ), (0 : ℤ)),
      visited_count := 3, path_length := 0, is_running := false,
      is_complete := true, path_found := true,
      dist := fun p => if p = ((0 : ℤ), (0 : ℤ)) then 0
        else if p = ((1 : ℤ), (0 : ℤ)) then 1
        else if p = ((2 : ℤ), (0 : ℤ)) then 2 else ⊤,
      prev := fun p => if p = ((2 : ℤ), (0 : ℤ)) then some ((1 : ℤ), (0 : ℤ))
        else if p = ((1 : ℤ), (0 : ℤ)) then some ((0 : ℤ), (0 : ℤ)) else none,
      nstate := fun p => if p = ((1 : ℤ), (0 : ℤ)) then NodeState.VISITED
        else NodeState.EMPTY,
      priority_queue := [], visited_nodes := [] } rfl (by decide)
  constructor
  · rw [h.2.2.1]
    decide
  · rw [h.2.2.2 ((1 : ℤ), (0 : ℤ))]
    decide

/-! ## Claim C2: termination and the visited-count bound -/

theorem popMin_rest_length (e : ℕ∞ × ν) (t : List (ℕ∞ × ν)) :
    (popMin e t).2.length = t.length := by
  induction t generalizing e with
  | nil => rfl
  | cons f t ih =>
    by_cases h : f.1 < e.1 <;> simp only [popMin, if_pos, if_neg, h] <;> simp [ih]

theorem step_not_cont_complete (g : Graph ν) (a : Algo ν)
    (h : (step g a).2.1 = false) : (step g a).1.is_complete = true := by
  by_cases hcT : a.is_complete = true
  · rw [step_of_complete g a hcT]
  have hc : a.is_complete = false := by revert hcT; cases a.is_complete <;> simp
  by_cases hpqE : a.priority_queue = []
  · rw [step_of_empty g a hpqE]
  obtain ⟨e, t, hpq⟩ := List.exists_cons_of_ne_nil hpqE
  by_cases hd : a.dist (popMin e t).1.2 < (popMin e t).1.1
  · rw [step_stale g a e t hpq hc hd] at h
    cases h
  by_cases hv : (popMin e t).1.2 ∈ a.visited_nodes
  · rw [step_seen g a e t hpq hc hd hv] at h
    cases h
  by_cases he : (popMin e t).1.2 = a.end_node
  · rw [step_fresh_end g a e t hpq hc hd hv he]
    rw [reconstructPath_complete]
  · rw [step_fresh_relax g a e t hpq hc hd hv he] at h
    cases h

theorem step_preserves_complete (g : Graph ν) (a : Algo ν)
    (h : a.is_complete = true) : (step g a).1.is_complete = true := by
  rw [step_of_complete g a h]

theorem stepIter_preserves_complete (g : Graph ν) :
    ∀ (n : ℕ) (a : Algo ν), a.is_complete = true →
      (stepIter g n a).is_complete = true := by
  intro n
  induction n with
  | zero => intro a h; exact h
  | succ n ih =>
    intro a h
    exact ih (step g a).1 (step_preserves_complete g a h)

theorem countInv_mkAlgo (g : Graph ν) (s e : ν) (dist0 : ν → ℕ∞)
    (prev0 : ν → Option ν) (st0 : ν → NodeState) (hs : s ∈ g.nodes) :
    countInv g (mkAlgo s e dist0 prev0 st0) := by
  refine ⟨List.nodup_nil, ?_, ?_, rfl⟩
  · intro v hv
    cases hv
  · intro q hq
    rcases List.mem_singleton.mp hq with rfl
    exact hs

theorem countInv_step (g : Graph ν) (a : Algo ν)
    (hcl : ∀ u ∈ g.nodes, ∀ v ∈ g.neighbors u, v ∈ g.nodes)
    (hinv : countInv g a) : countInv g (step g a).1 := by
  obtain ⟨h1, h2, h3, h4⟩ := hinv
  rcases step_cases g a with h | ⟨e, t, hpq, _, h⟩ |
    ⟨e, t, hpq, _, hv, _, ⟨_, h⟩ | ⟨_, h⟩⟩ <;> rw [h]
  · exact ⟨h1, h2, h3, h4⟩
  · refine ⟨h1, h2, ?_, h4⟩
    intro q hq
    exact h3 q (hpq ▸ popMin_rest_subset e t q hq)
  · have humem : (popMin e t).1.2 ∈ g.nodes :=
      h3 (popMin e t).1 (hpq ▸ popMin_fst_mem e t)
    rw [countInv]
    rw [reconstructPath_visited, reconstructPath_pq, reconstructPath_count]
    show ((visitNode a _ _).visited_nodes).Nodup ∧ _
    rw [visitNode_visited, visitNode_pq, visitNode_count]
    refine ⟨List.Nodup.cons hv h1, ?_, ?_, by simp [h4]⟩
    · intro v hvm
      rcases List.mem_cons.mp hvm with rfl | hvm'
      · exact humem
      · exact h2 v hvm'
    · intro q hq
      exact h3 q (hpq ▸ popMin_rest_subset e t q hq)
  · have humem : (popMin e t).1.2 ∈ g.nodes :=
      h3 (popMin e t).1 (hpq ▸ popMin_fst_mem e t)
    have huvis : (popMin e t).1.2 ∈ (visitNode a (popMin e t).1.2
        (popMin e t).2).visited_nodes := by
      rw [visitNode_visited]
      exact List.mem_cons_self _ _
    obtain ⟨added, hpq', hlen, hprops⟩ :=
      relaxList_pq (popMin e t).1.2 (g.neighbors (popMin e t).1.2)
        (visitNode a (popMin e t).1.2 (popMin e t).2) huvis
    rw [countInv, relaxList_visited, relaxList_count, hpq', visitNode_visited,
      visitNode_pq, visitNode_count]
    refine ⟨List.Nodup.cons hv h1, ?_, ?_, by simp [h4]⟩
    · intro v hvm
      rcases List.mem_cons.mp hvm with rfl | hvm'
      · exact humem
      · exact h2 v hvm'
    · intro q hq
      rcases List.mem_append.mp hq with hq' | hq'
      · exact h3 q (hpq ▸ popMin_rest_subset e t q hq')
      · exact hcl _ humem _ (hprops q hq').2.1

theorem step_measure_lt (g : Graph ν) (a : Algo ν)
    (hinv : countInv g a) (hc : a.is_complete = false)
    (hcont : (step g a).2.1 = true) :
    stepMeasure g (step g a).1 < stepMeasure g a := by
  obtain ⟨h1, h2, h3, h4⟩ := hinv
  by_cases hpqE : a.priority_queue = []
  · rw [step_of_empty g a hpqE] at hcont
    cases hcont
  obtain ⟨e, t, hpq⟩ := List.exists_cons_of_ne_nil hpqE
  have hlenpq : a.priority_queue.length = t.length + 1 := by rw [hpq]; rfl
  by_cases hd : a.dist (popMin e t).1.2 < (popMin e t).1.1
  · rw [step_stale g a e t hpq hc hd]
    show (popMin e t).2.length +
        (g.nodes.toFinset.filter fun v => v ∉ a.visited_nodes).sum
          (fun v => (g.neighbors v).length) <
      a.priority_queue.length +
        (g.nodes.toFinset.filter fun v => v ∉ a.visited_nodes).sum
          (fun v => (g.neighbors v).length)
    rw [popMin_rest_length, hlenpq]
    omega
  by_cases hv : (popMin e t).1.2 ∈ a.visited_nodes
  · rw [step_seen g a e t hpq hc hd hv]
    show (popMin e t).2.length +
        (g.nodes.toFinset.filter fun v => v ∉ a.visited_nodes).sum
          (fun v => (g.neighbors v).length) <
      a.priority_queue.length +
        (g.nodes.toFinset.filter fun v => v ∉ a.visited_nodes).sum
          (fun v => (g.neighbors v).length)
    rw [popMin_rest_length, hlenpq]
    omega
  by_cases he : (popMin e t).1.2 = a.end_node
  · rw [step_fresh_end g a e t hpq hc hd hv he] at hcont
    cases hcont
  rw [step_fresh_relax g a e t hpq hc hd hv he]
  have humem : (popMin e t).1.2 ∈ g.nodes :=
    h3 (popMin e t).1 (hpq ▸ popMin_fst_mem e t)
  have huvis : (popMin e t).1.2 ∈ (visitNode a (popMin e t).1.2
      (popMin e t).2).visited_nodes := by
    rw [visitNode_visited]
    exact List.mem_cons_self _ _
  obtain ⟨added, hpq', hlen, _⟩ :=
    relaxList_pq (popMin e t).1.2 (g.neighbors (popMin e t).1.2)
      (visitNode a (popMin e t).1.2 (popMin e t).2) huvis
  unfold stepMeasure
  rw [hpq', visitNode_pq, relaxList_visited, visitNode_visited]
  have hus : (popMin e t).1.2 ∈
      g.nodes.toFinset.filter fun v => v ∉ a.visited_nodes := by
    rw [Finset.mem_filter]
    exact ⟨List.mem_toFinset.mpr humem, hv⟩
  have hfilter : (g.nodes.toFinset.filter
      fun v => v ∉ (popMin e t).1.2 :: a.visited_nodes) =
      (g.nodes.toFinset.filter fun v => v ∉ a.visited_nodes).erase
        (popMin e t).1.2 := by
    ext x
    simp only [Finset.mem_filter, Finset.mem_erase, List.mem_cons, not_or]
    tauto
  rw [hfilter]
  have hsum : ((g.nodes.toFinset.filter fun v => v ∉ a.visited_nodes).erase
        (popMin e t).1.2).sum (fun v => (g.neighbors v).length) +
      (g.neighbors (popMin e t).1.2).length =
      (g.nodes.toFinset.filter fun v => v ∉ a.visited_nodes).sum
        (fun v => (g.neighbors v).length) :=
    Finset.sum_erase_add _ _ hus
  have hlapp : ((popMin e t).2 ++ added).length =
      (popMin e t).2.length + added.length := List.length_append _ _
  rw [hlapp, popMin_rest_length, hlenpq]
  omega

theorem countInv_runCompleteLoop (g : Graph ν)
    (hcl : ∀ u ∈ g.nodes, ∀ v ∈ g.neighbors u, v ∈ g.nodes) :
    ∀ (fuel : ℕ) (a : Algo ν), countInv g a →
      countInv g (runCompleteLoop g fuel a) := by
  intro fuel
  induction fuel with
  | zero => intro a h; exact h
  | succ fuel ih =>
    intro a h
    show countInv g (if a.is_complete then a else _)
    split
    · exact h
    · show countInv g (if (step g a).2.1 then runCompleteLoop g fuel (step g a).1
        else (step g a).1)
      split
      · exact ih _ (countInv_step g a hcl h)
      · exact countInv_step g a hcl h

theorem countInv_stepIter (g : Graph ν)
    (hcl : ∀ u ∈ g.nodes, ∀ v ∈ g.neighbors u, v ∈ g.nodes) :
    ∀ (n : ℕ) (a : Algo ν), countInv g a → countInv g (stepIter g n a) := by
  intro n
  induction n with
  | zero => intro a h; exact h
  | succ n ih =>
    intro a h
    exact ih (step g a).1 (countInv_step g a hcl h)

theorem countInv_count_le (g : Graph ν) (a : Algo ν) (hinv : countInv g a) :
    a.visited_count ≤ g.nodes.length := by
  obtain ⟨h1, h2, _, h4⟩ := hinv
  rw [h4, ← List.toFinset_card_of_nodup h1]
  refine le_trans (Finset.card_le_card ?_) g.nodes.toFinset_card_le
  intro x hx
  exact List.mem_toFinset.mpr (h2 x (List.mem_toFinset.mp hx))

theorem runCompleteLoop_complete (g : Graph ν)
    (hcl : ∀ u ∈ g.nodes, ∀ v ∈ g.neighbors u, v ∈ g.nodes) :
    ∀ (n : ℕ) (a : Algo ν), countInv g a → stepMeasure g a ≤ n →
      (runCompleteLoop g (n + 1) a).is_complete = true := by
  intro n
  induction n with
  | zero =>
    intro a hinv hm
    show (if a.is_complete then a else _).is_complete = true
    split
    · rename_i hcc
      exact hcc
    · rename_i hcc
      have hc : a.is_complete = false := by revert hcc; cases a.is_complete <;> simp
      show (if (step g a).2.1 then runCompleteLoop g 0 (step g a).1
        else (step g a).1).is_complete = true
      split
      · rename_i hcont
        have := step_measure_lt g a ⟨hinv.1, hinv.2.1, hinv.2.2.1, hinv.2.2.2⟩ hc hcont
        omega
      · rename_i hcont
        have hf : (step g a).2.1 = false := by revert hcont; cases (step g a).2.1 <;> simp
        exact step_not_cont_complete g a hf
  | succ n ih =>
    intro a hinv hm
    show (if a.is_complete then a else _).is_complete = true
    split
    · rename_i hcc
      exact hcc
    · rename_i hcc
      have hc : a.is_complete = false := by revert hcc; cases a.is_complete <;> simp
      show (if (step g a).2.1 then runCompleteLoop g (n + 1) (step g a).1
        else (step g a).1).is_complete = true
      split
      · rename_i hcont
        have hlt := step_measure_lt g a hinv hc hcont
        exact ih (step g a).1 (countInv_step g a hcl hinv) (by omega)
      · rename_i hcont
        have hf : (step g a).2.1 = false := by revert hcont; cases (step g a).2.1 <;> simp
        exact step_not_cont_complete g a hf

theorem stepIter_complete (g : Graph ν)
    (hcl : ∀ u ∈ g.nodes, ∀ v ∈ g.neighbors u, v ∈ g.nodes) :
    ∀ (n : ℕ) (a : Algo ν), countInv g a → stepMeasure g a ≤ n →
      (stepIter g (n + 1) a).is_complete = true := by
  intro n
  induction n with
  | zero =>
    intro a hinv hm
    show (stepIter g 0 (step g a).1).is_complete = true
    by_cases hcc : a.is_complete = true
    · exact step_preserves_complete g a hcc
    · have hc : a.is_complete = false := by revert hcc; cases a.is_complete <;> simp
      by_cases hcont : (step g a).2.1 = true
      · have := step_measure_lt g a hinv hc hcont
        omega
      · have hf : (step g a).2.1 = false := by revert hcont; cases (step g a).2.1 <;> simp
        exact step_not_cont_complete g a hf
  | succ n ih =>
    intro a hinv hm
    show (stepIter g (n + 1) (step g a).1).is_complete = true
    by_cases hcc : a.is_complete = true
    · exact stepIter_preserves_complete g (n + 1) (step g a).1
        (step_preserves_complete g a hcc)
    · have hc : a.is_complete = false := by revert hcc; cases a.is_complete <;> simp
      by_cases hcont : (step g a).2.1 = true
      · have hlt := step_measure_lt g a hinv hc hcont
        exact ih (step g a).1 (countInv_step g a hcl hinv) (by omega)
      · have hf : (step g a).2.1 = false := by revert hcont; cases (step g a).2.1 <;> simp
        exact stepIter_preserves_complete g (n + 1) (step g a).1
          (step_not_cont_complete g a hf)

/-- C2: on any finite graph that contains the start node and is closed under
the neighbor lists, a freshly constructed engine reaches
`is_complete = true` after finitely many `step()` calls; the visit counter —
incremented exactly by the calls that mark a node visited — never exceeds
the node count; and the same holds for `run_complete`'s loop, which
therefore terminates. -/
theorem engine_terminates (g : Graph ν) (s e : ν) (dist0 : ν → ℕ∞)
    (prev0 : ν → Option ν) (st0 : ν → NodeState)
    (hs : s ∈ g.nodes)
    (hcl : ∀ u ∈ g.nodes, ∀ v ∈ g.neighbors u, v ∈ g.nodes) :
    (∃ n, (stepIter g n (mkAlgo s e dist0 prev0 st0)).is_complete = true) ∧
    (∀ n, (stepIter g n (mkAlgo s e dist0 prev0 st0)).visited_count ≤
      g.nodes.length) ∧
    (∃ fuel, (run_complete g fuel (mkAlgo s e dist0 prev0 st0)).is_complete =
      true) ∧
    (∀ fuel, (run_complete g fuel (mkAlgo s e dist0 prev0 st0)).visited_count ≤
      g.nodes.length) := by
  have hinv := countInv_mkAlgo g s e dist0 prev0 st0 hs
  have hinv2 : countInv g { mkAlgo s e dist0 prev0 st0 with is_running := true } :=
    hinv
  refine ⟨⟨stepMeasure g (mkAlgo s e dist0 prev0 st0) + 1, ?_⟩, ?_,
    ⟨stepMeasure g (mkAlgo s e dist0 prev0 st0) + 1, ?_⟩, ?_⟩
  · exact stepIter_complete g hcl _ _ hinv (le_refl _)
  · intro n
    exact countInv_count_le g _ (countInv_stepIter g hcl n _ hinv)
  · exact runCompleteLoop_complete g hcl _ _ hinv2 (le_refl _)
  · intro fuel
    exact countInv_count_le g _ (countInv_runCompleteLoop g hcl fuel _ hinv2)

/-- Witness for C2 on the 2×2 grid: after 30 raw steps, and after a 30-step
`run_complete`, the visit counter is within the node count (4). -/
theorem engine_terminates_witness :
    (stepIter (gridGraph 2 2) 30
      (mkAlgo ((0 : ℤ), (0 : ℤ)) ((1 : ℤ), (1 : ℤ)) (fun _ => (⊤ : ℕ∞))
        (fun _ => none) (gridStates 2 2))).visited_count ≤
      (gridGraph 2 2).nodes.length ∧
    (run_complete (gridGraph 2 2) 30
      (mkAlgo ((0 : ℤ), (0 : ℤ)) ((1 : ℤ), (1 : ℤ)) (fun _ => (⊤ : ℕ∞))
        (fun _ => none) (gridStates 2 2))).visited_count ≤
      (gridGraph 2 2).nodes.length :=
  ⟨(engine_terminates (gridGraph 2 2) ((0 : ℤ), (0 : ℤ)) ((1 : ℤ), (1 : ℤ))
      (fun _ => (⊤ : ℕ∞)) (fun _ => none) (gridStates 2 2)
      (by decide) (by decide)).2.1 30,
   (engine_terminates (gridGraph 2 2) ((0 : ℤ), (0 : ℤ)) ((1 : ℤ), (1 : ℤ))
      (fun _ => (⊤ : ℕ∞)) (fun _ => none) (gridStates 2 2)
      (by decide) (by decide)).2.2.2 30⟩

/-! ## Grid geometry lemmas for claim C1 -/

theorem mem_gridNodes (R C : ℕ) (p : Pos) :
    p ∈ gridNodes R C ↔ inGrid R C p := by
  obtain ⟨x, y⟩ := p
  unfold gridNodes inGrid
  rw [List.mem_flatMap]
  constructor
  · rintro ⟨r, hr, hmem⟩
    rw [List.mem_range] at hr
    rw [List.mem_map] at hmem
    obtain ⟨c, hc, heq⟩ := hmem
    rw [List.mem_range] at hc
    injection heq with e1 e2
    dsimp only
    omega
  · intro h
    dsimp only at h
    refine ⟨x.toNat, ?_, ?_⟩
    · rw [List.mem_range]
      omega
    · rw [List.mem_map]
      refine ⟨y.toNat, ?_, ?_⟩
      · rw [List.mem_range]
        omega
      · rw [Prod.mk.injEq]
        constructor <;> omega

theorem mem_gridNeighbors (R C : ℕ) (p q : Pos) :
    q ∈ gridNeighbors R C p ↔
      inGrid R C q ∧
        ((q.1 = p.1 - 1 ∧ q.2 = p.2) ∨ (q.1 = p.1 + 1 ∧ q.2 = p.2) ∨
         (q.1 = p.1 ∧ q.2 = p.2 - 1) ∨ (q.1 = p.1 ∧ q.2 = p.2 + 1)) := by
  unfold gridNeighbors dirs
  rw [List.mem_filterMap]
  constructor
  · rintro ⟨d, hd, hf⟩
    simp only [List.mem_cons, List.not_mem_nil, or_false] at hd
    rcases hd with rfl | rfl | rfl | rfl <;>
      · split at hf
        · rename_i hIn
          rcases Option.some_injective _ hf with rfl
          refine ⟨hIn, ?_⟩
          dsimp only
          omega
        · cases hf
  · rintro ⟨hq, hcase⟩
    obtain ⟨x, y⟩ := p
    obtain ⟨qx, qy⟩ := q
    simp only [] at hcase
    rcases hcase with ⟨h1, h2⟩ | ⟨h1, h2⟩ | ⟨h1, h2⟩ | ⟨h1, h2⟩
    · refine ⟨(-1, 0), by simp, ?_⟩
      have hpt : ((x, y).1 + (-1 : ℤ), (x, y).2 + (0 : ℤ)) = (qx, qy) := by
        rw [Prod.mk.injEq]
        constructor <;> omega
      rw [hpt, if_pos hq]
    · refine ⟨(1, 0), by simp, ?_⟩
      have hpt : ((x, y).1 + (1 : ℤ), (x, y).2 + (0 : ℤ)) = (qx, qy) := by
        rw [Prod.mk.injEq]
        constructor <;> omega
      rw [hpt, if_pos hq]
    · refine ⟨(0, -1), by simp, ?_⟩
      have hpt : ((x, y).1 + (0 : ℤ), (x, y).2 + (-1 : ℤ)) = (qx, qy) := by
        rw [Prod.mk.injEq]
        constructor <;> omega
      rw [hpt, if_pos hq]
    · refine ⟨(0, 1), by simp, ?_⟩
      have hpt : ((x, y).1 + (0 : ℤ), (x, y).2 + (1 : ℤ)) = (qx, qy) := by
        rw [Prod.mk.injEq]
        constructor <;> omega
      rw [hpt, if_pos hq]

theorem gridNeighbors_inGrid (R C : ℕ) (p q : Pos)
    (h : q ∈ gridNeighbors R C p) : inGrid R C q :=
  ((mem_gridNeighbors R C p q).mp h).1

theorem gridGraph_closed (R C : ℕ) :
    ∀ u ∈ (gridGraph R C).nodes, ∀ v ∈ (gridGraph R C).neighbors u,
      v ∈ (gridGraph R C).nodes := by
  intro u _ v hv
  exact (mem_gridNodes R C v).mpr (gridNeighbors_inGrid R C u v hv)

theorem manhattan_neighbor (R C : ℕ) (u v : Pos) (hu : inGrid R C u)
    (hv : v ∈ gridNeighbors R C u) : manhattan v ≤ manhattan u + 1 := by
  obtain ⟨hvg, hcase⟩ := (mem_gridNeighbors R C u v).mp hv
  obtain ⟨x, y⟩ := u
  obtain ⟨a, b⟩ := v
  unfold inGrid at hu hvg
  unfold manhattan
  simp only [] at hu hvg hcase ⊢
  rcases hcase with ⟨h1, h2⟩ | ⟨h1, h2⟩ | ⟨h1, h2⟩ | ⟨h1, h2⟩ <;> omega

theorem gridNodes_length (R C : ℕ) : (gridNodes R C).length = R * C := by
  unfold gridNodes
  induction R with
  | zero => simp
  | succ n ih =>
    rw [List.range_succ, List.flatMap_append, List.length_append, ih]
    simp [Nat.succ_mul]

theorem stair_zero (p : Pos) (h1 : 0 ≤ p.1) : stair p 0 = ((0 : ℤ), (0 : ℤ)) := by
  unfold stair
  rw [if_pos (by omega : ((0 : ℕ) : ℤ) ≤ p.1)]
  rfl

theorem stair_last (p : Pos) (h1 : 0 ≤ p.1) (h2 : 0 ≤ p.2) :
    stair p (manhattan p) = p := by
  obtain ⟨x, y⟩ := p
  unfold stair manhattan
  simp only [] at h1 h2 ⊢
  split <;> rename_i h <;> rw [Prod.mk.injEq] <;> constructor <;> omega

theorem stair_manhattan (p : Pos) (j : ℕ) (h1 : 0 ≤ p.1) (h2 : 0 ≤ p.2)
    (hj : j ≤ manhattan p) : manhattan (stair p j) = j := by
  obtain ⟨x, y⟩ := p
  unfold manhattan at hj
  unfold stair manhattan
  simp only [] at h1 h2 hj ⊢
  split <;> rename_i h <;> simp only [] <;> omega

theorem stair_inGrid (R C : ℕ) (p : Pos) (j : ℕ) (hp : inGrid R C p)
    (hj : j ≤ manhattan p) : inGrid R C (stair p j) := by
  obtain ⟨x, y⟩ := p
  unfold manhattan at hj
  unfold inGrid at hp ⊢
  unfold stair
  simp only [] at hp hj ⊢
  obtain ⟨hp1, hp2, hp3, hp4⟩ := hp
  split <;> rename_i h <;> simp only [] <;> refine ⟨?_, ?_, ?_, ?_⟩ <;> omega

theorem stair_adj (R C : ℕ) (p : Pos) (j : ℕ) (hp : inGrid R C p)
    (hj : j + 1 ≤ manhattan p) :
    stair p (j + 1) ∈ gridNeighbors R C (stair p j) := by
  rw [mem_gridNeighbors]
  refine ⟨stair_inGrid R C p (j + 1) hp hj, ?_⟩
  obtain ⟨x, y⟩ := p
  unfold inGrid at hp
  unfold manhattan at hj
  unfold stair
  simp only [] at hp hj ⊢
  obtain ⟨hp1, hp2, hp3, hp4⟩ := hp
  by_cases hA : ((j : ℤ) + 1) ≤ x
  · rw [if_pos (by omega : ((j : ℕ) : ℤ) ≤ x)]
    rw [if_pos (by omega : (((j + 1 : ℕ)) : ℤ) ≤ x)]
    right; left
    constructor <;> simp <;> omega
  · by_cases hB : ((j : ℤ)) ≤ x
    · rw [if_pos hB, if_neg (by omega : ¬(((j + 1 : ℕ)) : ℤ) ≤ x)]
      right; right; right
      constructor <;> simp <;> omega
    · rw [if_neg hB, if_neg (by omega : ¬(((j + 1 : ℕ)) : ℤ) ≤ x)]
      right; right; right
      constructor <;> simp <;> omega

/-! ## The predecessor chain length under the C1 invariant -/

theorem pathChain_length_of_dist (dist : ν → ℕ∞) (prev : ν → Option ν) (s : ν)
    (hds : dist s = 0) (hps : prev s = none)
    (hC : ∀ v, dist v ≠ ⊤ → v = s ∨
      ∃ u, prev v = some u ∧ dist v = dist u + 1 ∧ dist u ≠ ⊤) :
    ∀ (k : ℕ) (v : ν), dist v = (k : ℕ∞) → ∀ fuel, k < fuel →
      (pathChain prev fuel (some v)).length = k + 1 := by
  intro k
  induction k with
  | zero =>
    intro v hv fuel hf
    rw [Nat.cast_zero] at hv
    have hvs : v = s := by
      rcases hC v (by rw [hv]; simp) with h | ⟨u, _, hu2, _⟩
      · exact h
      · exfalso
        rw [hv] at hu2
        have h0 : dist u + 1 = 0 := hu2.symm
        rcases add_eq_zero.mp h0 with ⟨_, h1⟩
        exact one_ne_zero h1
    cases fuel with
    | zero => omega
    | succ f =>
      show (v :: pathChain prev f (prev v)).length = 1
      rw [hvs, hps, pathChain_none]
      rfl
  | succ k ih =>
    intro v hv fuel hf
    have hvne : dist v ≠ ⊤ := by rw [hv]; exact ENat.coe_ne_top (k + 1)
    rcases hC v hvne with h | ⟨u, hu1, hu2, hu3⟩
    · exfalso
      rw [h, hds] at hv
      push_cast at hv
      rcases add_eq_zero.mp hv.symm with ⟨_, h1⟩
      exact one_ne_zero h1
    · obtain ⟨m, hm⟩ := WithTop.ne_top_iff_exists.mp hu3
      have hmk : m = k := by
        rw [hv, ← hm] at hu2
        push_cast at hu2
        have h3 : (k : ℕ∞) = (m : ℕ∞) :=
          WithTop.add_right_cancel WithTop.one_ne_top hu2
        exact (Nat.cast_inj.mp h3).symm
      cases fuel with
      | zero => omega
      | succ f =>
        show (v :: pathChain prev f (prev v)).length = k + 1 + 1
        rw [hu1, List.length_cons]
        have hdu : dist u = (k : ℕ∞) := by rw [← hm, hmk]; exact rfl
        rw [ih u hdu f (by omega)]

theorem reconstructPath_length (g : Graph ν) (a : Algo ν)
    (hpf : a.path_found = true) :
    (reconstructPath g a).path_length =
      (pathChain a.prev (g.nodes.length + 1) (some a.end_node)).length - 1 := by
  unfold reconstructPath
  rw [hpf]
  rfl

theorem grid_size_bound (R C : ℕ) (hR : 1 ≤ R) (hC : 1 ≤ C) :
    R + C - 2 < R * C + 1 := by
  obtain ⟨r, rfl⟩ : ∃ r, R = r + 1 := ⟨R - 1, by omega⟩
  obtain ⟨c, rfl⟩ : ∃ c, C = c + 1 := ⟨C - 1, by omega⟩
  have h : (r + 1) * (c + 1) = r * c + r + c + 1 := by ring
  omega

/-! ## Core lemmas of the C1 invariant -/

theorem relaxList_pq_mono (u : ν) (l : List ν) (a : Algo ν) (q : ℕ∞ × ν)
    (hq : q ∈ a.priority_queue) : q ∈ (relaxList u l a).priority_queue := by
  induction l generalizing a with
  | nil => exact hq
  | cons v rest ih =>
    unfold relaxList
    split
    · exact ih a hq
    · split
      · refine ih (relaxUpd u v a) ?_
        rw [relaxUpd_pq]
        exact List.mem_append_left _ hq
      · exact ih a hq

theorem relaxList_changed_entry (u : ν) (l : List ν) (a : Algo ν)
    (hu : u ∈ a.visited_nodes) :
    ∀ w, (relaxList u l a).dist w ≠ a.dist w →
      (a.dist u + 1, w) ∈ (relaxList u l a).priority_queue := by
  induction l generalizing a with
  | nil => intro w hw; exact absurd rfl hw
  | cons v rest ih =>
    intro w hw
    unfold relaxList at hw ⊢
    by_cases hvv : v ∈ a.visited_nodes
    · rw [if_pos hvv] at hw ⊢
      exact ih a hu w hw
    · rw [if_neg hvv] at hw ⊢
      have huv : u ≠ v := fun h => hvv (h ▸ hu)
      by_cases hlt : a.dist u + 1 < a.dist v
      · rw [if_pos hlt] at hw ⊢
        by_cases hwv : w = v
        · subst hwv
          refine relaxList_pq_mono u rest (relaxUpd u w a) _ ?_
          rw [relaxUpd_pq]
          exact List.mem_append_right _ (List.mem_singleton.mpr rfl)
        · have hw2 : (relaxList u rest (relaxUpd u v a)).dist w ≠
              (relaxUpd u v a).dist w := by
            rw [relaxUpd_dist]
            simpa [hwv] using hw
          have h3 := ih (relaxUpd u v a) (by simpa [relaxUpd_visited] using hu) w hw2
          rwa [relaxUpd_dist_u u v a huv] at h3
      · rw [if_neg hlt] at hw ⊢
        exact ih a hu w hw

theorem inv_pf_false (R C : ℕ) (a : Algo Pos) (inv : GridInv R C a)
    (hc : a.is_complete = false) : a.path_found = false := by
  by_cases h : a.path_found = true
  · rw [inv.hG1 h] at hc
    cases hc
  · revert h
    cases a.path_found <;> simp

theorem inv_pq_ne_nil (R C : ℕ) (hR : 1 ≤ R) (hC : 1 ≤ C) (a : Algo Pos)
    (inv : GridInv R C a) (hc : a.is_complete = false) :
    a.priority_queue ≠ [] := by
  intro hnil
  have act := inv.hAct hc
  have hpf : a.path_found = false := inv_pf_false R C a inv hc
  have hstart_vis : ((0 : ℤ), (0 : ℤ)) ∈ a.visited_nodes := by
    rcases act.hH with h | h
    · exact h
    · rw [hnil] at h
      cases h
  have hclosed : ∀ w ∈ a.visited_nodes, ∀ v ∈ gridNeighbors R C w,
      v ∈ a.visited_nodes := by
    intro w hw v hv
    by_contra hnv
    have hle : a.dist v ≤ ((manhattan w + 1 : ℕ) : ℕ∞) := by
      have h1 := act.hE w hw v hv
      rw [act.hU w hw] at h1
      push_cast
      exact h1
    have hfin : a.dist v ≠ ⊤ := ne_top_of_le_ne_top (ENat.coe_ne_top _) hle
    have := act.hF v hnv hfin
    rw [hnil] at this
    cases this
  have hinend : inGrid R C ((R : ℤ) - 1, (C : ℤ) - 1) := by
    unfold inGrid
    refine ⟨by omega, by omega, by omega, by omega⟩
  have hx1 : (0 : ℤ) ≤ ((R : ℤ) - 1, (C : ℤ) - 1).1 := by dsimp only; omega
  have hx2 : (0 : ℤ) ≤ ((R : ℤ) - 1, (C : ℤ) - 1).2 := by dsimp only; omega
  have hstair : ∀ j, j ≤ manhattan ((R : ℤ) - 1, (C : ℤ) - 1) →
      stair ((R : ℤ) - 1, (C : ℤ) - 1) j ∈ a.visited_nodes := by
    intro j
    induction j with
    | zero =>
      intro _
      rw [stair_zero _ hx1]
      exact hstart_vis
    | succ j ih =>
      intro hj
      exact hclosed _ (ih (by omega)) _
        (stair_adj R C _ j hinend hj)
  have hend_vis : a.end_node ∈ a.visited_nodes := by
    rw [inv.hend]
    rw [← stair_last ((R : ℤ) - 1, (C : ℤ) - 1) hx1 hx2]
    exact hstair _ (le_refl _)
  rw [inv.hG.mpr hend_vis] at hpf
  cases hpf

theorem fresh_pop_dist (R C : ℕ) (hR : 1 ≤ R) (hC : 1 ≤ C) (a : Algo Pos)
    (inv : GridInv R C a) (hc : a.is_complete = false)
    (e : ℕ∞ × Pos) (t : List (ℕ∞ × Pos)) (hpq : a.priority_queue = e :: t)
    (hd : ¬ a.dist (popMin e t).1.2 < (popMin e t).1.1)
    (hv : (popMin e t).1.2 ∉ a.visited_nodes) :
    (popMin e t).1.1 = a.dist (popMin e t).1.2 ∧
    a.dist (popMin e t).1.2 = (manhattan (popMin e t).1.2 : ℕ∞) ∧
    inGrid R C (popMin e t).1.2 := by
  have act := inv.hAct hc
  have hmem : (popMin e t).1 ∈ a.priority_queue := by
    rw [hpq]
    exact popMin_fst_mem e t
  have heq : (popMin e t).1.1 = a.dist (popMin e t).1.2 :=
    le_antisymm (not_lt.mp hd) (inv.hB _ hmem)
  have hgrid : inGrid R C (popMin e t).1.2 := inv.hCl _ hmem
  have hx1 : (0 : ℤ) ≤ (popMin e t).1.2.1 := hgrid.1
  have hx2 : (0 : ℤ) ≤ (popMin e t).1.2.2 := hgrid.2.2.1
  have hex : ∃ i, stair (popMin e t).1.2 i ∉ a.visited_nodes :=
    ⟨manhattan (popMin e t).1.2, by rw [stair_last _ hx1 hx2]; exact hv⟩
  have hfle : Nat.find hex ≤ manhattan (popMin e t).1.2 :=
    Nat.find_le (by rw [stair_last _ hx1 hx2]; exact hv)
  have hdman : (popMin e t).1.1 ≤ ((manhattan (popMin e t).1.2 : ℕ) : ℕ∞) := by
    rcases hfind : Nat.find hex with _ | i
    · have h00 : ((0 : ℤ), (0 : ℤ)) ∉ a.visited_nodes := by
        rw [← stair_zero (popMin e t).1.2 hx1]
        have := Nat.find_spec hex
        rwa [hfind] at this
      rcases act.hH with hcase | hcase
      · exact absurd hcase h00
      · have hmin := popMin_min e t ((0 : ℕ∞), ((0 : ℤ), (0 : ℤ)))
          (by rw [← hpq]; exact hcase)
        exact le_trans hmin (by simp)
    · have hivis : stair (popMin e t).1.2 i ∈ a.visited_nodes := by
        have := Nat.find_min hex (m := i) (by omega)
        exact not_not.mp this
      have hile : i + 1 ≤ manhattan (popMin e t).1.2 := by
        rw [hfind] at hfle
        exact hfle
      have hadj := stair_adj R C (popMin e t).1.2 i hgrid hile
      have hdist_i : a.dist (stair (popMin e t).1.2 i) = (i : ℕ∞) := by
        rw [act.hU _ hivis, stair_manhattan _ i hx1 hx2 (by omega)]
      have hE2 := act.hE _ hivis _ hadj
      rw [hdist_i] at hE2
      have hle2 : a.dist (stair (popMin e t).1.2 (i + 1)) ≤ ((i + 1 : ℕ) : ℕ∞) := by
        push_cast
        exact hE2
      have hnvis : stair (popMin e t).1.2 (i + 1) ∉ a.visited_nodes := by
        have := Nat.find_spec hex
        rwa [hfind] at this
      have hfin : a.dist (stair (popMin e t).1.2 (i + 1)) ≠ ⊤ :=
        ne_top_of_le_ne_top (ENat.coe_ne_top _) hle2
      have hFmem := act.hF _ hnvis hfin
      have hmin := popMin_min e t _ (by rw [← hpq]; exact hFmem)
      refine le_trans hmin (le_trans hle2 ?_)
      exact Nat.cast_le.mpr hile
  refine ⟨heq, le_antisymm ?_ (inv.hL _), hgrid⟩
  rw [← heq]
  exact hdman

theorem visitNode_complete (a : Algo ν) (u : ν) (rest : List (ℕ∞ × ν)) :
    (visitNode a u rest).is_complete = a.is_complete :=
  (visitNode_fields a u rest).2.2.2.2.2.1

/-- Preservation of the C1 invariant by a fresh expansion of a non-end node
`u` popped with minimal key `dk`: the node is visited and its neighbor list
relaxed. -/
theorem gridInv_relax (R C : ℕ) (hR : 1 ≤ R) (hC : 1 ≤ C) (a : Algo Pos)
    (inv : GridInv R C a) (hc : a.is_complete = false)
    (u : Pos) (dk : ℕ∞) (rest : List (ℕ∞ × Pos))
    (hpopmem : (dk, u) ∈ a.priority_queue)
    (hrest_sub : ∀ q ∈ rest, q ∈ a.priority_queue)
    (hrest_of_ne : ∀ q ∈ a.priority_queue, q ≠ (dk, u) → q ∈ rest)
    (hmin : ∀ q ∈ a.priority_queue, dk ≤ q.1)
    (hv : u ∉ a.visited_nodes)
    (heqd : dk = a.dist u)
    (hman : a.dist u = (manhattan u : ℕ∞))
    (hgrid : inGrid R C u)
    (he : u ≠ a.end_node) :
    GridInv R C (relaxList u (gridNeighbors R C u) (visitNode a u rest)) := by
  have hact := inv.hAct hc
  have hdufin : a.dist u ≠ ⊤ := by rw [hman]; exact ENat.coe_ne_top _
  have hu2 : u ∈ (visitNode a u rest).visited_nodes := by
    rw [visitNode_visited]
    exact List.mem_cons_self _ _
  set S := relaxList u (gridNeighbors R C u) (visitNode a u rest) with hS
  have hSvis : S.visited_nodes = u :: a.visited_nodes := by
    rw [hS, relaxList_visited, visitNode_visited]
  have hSstart : S.start_node = a.start_node := by
    rw [hS, relaxList_start, visitNode_start]
  have hSend : S.end_node = a.end_node := by
    rw [hS, relaxList_end, visitNode_end]
  have hSpf : S.path_found = a.path_found := by
    rw [hS, relaxList_found, visitNode_found]
  have hScomp : S.is_complete = a.is_complete := by
    rw [hS, relaxList_complete, visitNode_complete]
  have hdist_le : ∀ w, S.dist w ≤ a.dist w := by
    intro w
    have h := relaxList_dist_le u (gridNeighbors R C u) (visitNode a u rest) w
    rw [visitNode_dist] at h
    rw [hS]
    exact h
  have hfrozen : ∀ w ∈ a.visited_nodes,
      S.dist w = a.dist w ∧ S.prev w = a.prev w := by
    intro w hw
    have h := relaxList_frozen u (gridNeighbors R C u) (visitNode a u rest) w
      (by rw [visitNode_visited]; exact List.mem_cons.mpr (Or.inr hw))
    rw [visitNode_dist, visitNode_prev] at h
    rw [hS]
    exact h
  have hufrozen : S.dist u = a.dist u ∧ S.prev u = a.prev u := by
    have h := relaxList_frozen u (gridNeighbors R C u) (visitNode a u rest) u hu2
    rw [visitNode_dist, visitNode_prev] at h
    rw [hS]
    exact h
  have hchar : ∀ w, (S.dist w = a.dist w ∧ S.prev w = a.prev w) ∨
      (S.prev w = some u ∧ S.dist w = a.dist u + 1 ∧ w ∈ gridNeighbors R C u ∧
        w ∉ u :: a.visited_nodes ∧ S.dist w < a.dist w) := by
    intro w
    have h := relaxList_dist_char u (gridNeighbors R C u) (visitNode a u rest) hu2 w
    rw [visitNode_dist, visitNode_prev, visitNode_visited] at h
    rw [hS]
    exact h
  obtain ⟨added, hpqeq0, _, hprops0⟩ :=
    relaxList_pq u (gridNeighbors R C u) (visitNode a u rest) hu2
  have hpqeq : S.priority_queue = rest ++ added := by
    rw [hS, hpqeq0, visitNode_pq]
  have hprops : ∀ q ∈ added, q.1 = a.dist u + 1 ∧ q.2 ∈ gridNeighbors R C u ∧
      q.2 ∉ u :: a.visited_nodes := by
    intro q hq
    have h := hprops0 q hq
    rw [visitNode_dist, visitNode_visited] at h
    exact h
  have hrelaxed : ∀ v ∈ gridNeighbors R C u, v ∉ u :: a.visited_nodes →
      S.dist v ≤ a.dist u + 1 := by
    intro v hvl hnv
    have h := relaxList_relaxed u (gridNeighbors R C u) (visitNode a u rest) hu2 v hvl
      (by rw [visitNode_visited]; exact hnv)
    rw [visitNode_dist] at h
    rw [hS]
    exact h
  have hentry : ∀ w, S.dist w ≠ a.dist w →
      (a.dist u + 1, w) ∈ S.priority_queue := by
    intro w hw
    have h := relaxList_changed_entry u (gridNeighbors R C u) (visitNode a u rest) hu2 w
      (by rw [visitNode_dist]; rw [hS] at hw; exact hw)
    rw [visitNode_dist] at h
    rw [hS]
    exact h
  refine
    { hstart := by rw [hSstart]; exact inv.hstart
      hend := by rw [hSend]; exact inv.hend
      hds := ?_, hps := ?_, hB := ?_, hB3 := ?_, hCl := ?_, hC := ?_, hL := ?_
      hG := ?_, hG1 := ?_, hAct := ?_
      hDone := fun h =>
        absurd (show a.is_complete = true by rw [← hScomp]; exact h)
          (by simp [hc]) }
  · rcases hchar ((0 : ℤ), (0 : ℤ)) with ⟨h1, _⟩ | ⟨_, _, _, _, h5⟩
    · rw [h1]
      exact inv.hds
    · exfalso
      rw [inv.hds] at h5
      exact absurd h5 (not_lt.mpr (zero_le _))
  · rcases hchar ((0 : ℤ), (0 : ℤ)) with ⟨_, h2⟩ | ⟨_, _, _, _, h5⟩
    · rw [h2]
      exact inv.hps
    · exfalso
      rw [inv.hds] at h5
      exact absurd h5 (not_lt.mpr (zero_le _))
  · intro q hq
    rw [hpqeq] at hq
    rcases List.mem_append.mp hq with hq2 | hq2
    · exact le_trans (hdist_le q.2) (inv.hB q (hrest_sub q hq2))
    · obtain ⟨hq3, hq4, hq5⟩ := hprops q hq2
      rw [hq3]
      exact hrelaxed q.2 hq4 hq5
  · intro q hq
    rw [hpqeq] at hq
    rcases List.mem_append.mp hq with hq2 | hq2
    · exact inv.hB3 q (hrest_sub q hq2)
    · rw [(hprops q hq2).1]
      exact WithTop.add_ne_top.mpr ⟨hdufin, WithTop.one_ne_top⟩
  · intro q hq
    rw [hpqeq] at hq
    rcases List.mem_append.mp hq with hq2 | hq2
    · exact inv.hCl q (hrest_sub q hq2)
    · exact gridNeighbors_inGrid R C u q.2 (hprops q hq2).2.1
  · intro v hfin
    rcases hchar v with ⟨h1, h2⟩ | ⟨p1, p2, _, _, _⟩
    · rw [h1] at hfin
      rcases inv.hC v hfin with h | ⟨u0, g1, g2, g3, g4⟩
      · exact Or.inl h
      · refine Or.inr ⟨u0, ?_, ?_, ?_, ?_⟩
        · rw [h2]
          exact g1
        · rw [h1, (hfrozen u0 g3).1]
          exact g2
        · rw [hSvis]
          exact List.mem_cons.mpr (Or.inr g3)
        · rw [(hfrozen u0 g3).1]
          exact g4
    · refine Or.inr ⟨u, p1, ?_, ?_, ?_⟩
      · rw [p2, hufrozen.1]
      · rw [hSvis]
        exact List.mem_cons_self _ _
      · rw [hufrozen.1]
        exact hdufin
  · intro v
    rcases hchar v with ⟨h1, _⟩ | ⟨_, p2, p3, _, _⟩
    · rw [h1]
      exact inv.hL v
    · rw [p2, hman]
      refine le_trans (Nat.cast_le.mpr (manhattan_neighbor R C u v hgrid p3)) ?_
      push_cast
      exact le_refl _
  · rw [hSpf, hSend, hSvis, List.mem_cons]
    constructor
    · intro h
      exact Or.inr (inv.hG.mp h)
    · rintro (h | h)
      · exact absurd h.symm he
      · exact inv.hG.mpr h
  · intro h
    rw [hSpf] at h
    rw [hScomp]
    exact inv.hG1 h
  · intro _
    refine { hE := ?_, hF := ?_, hU := ?_, hUg := ?_, hM := ?_, hH := ?_ }
    · intro w hw v hvl
      rw [hSvis] at hw
      rcases List.mem_cons.mp hw with rfl | hw2
      · by_cases hvv : v ∈ w :: a.visited_nodes
        · rcases List.mem_cons.mp hvv with rfl | hvv2
          · exact le_self_add
          · rw [(hfrozen v hvv2).1, hufrozen.1]
            exact le_trans (le_trans (hact.hM (dk, w) hpopmem v hvv2)
              (le_of_eq heqd)) le_self_add
        · rw [hufrozen.1]
          exact hrelaxed v hvl hvv
      · rw [(hfrozen w hw2).1]
        exact le_trans (hdist_le v) (hact.hE w hw2 v hvl)
    · intro v hnv hfin
      rw [hSvis] at hnv
      have hvne_u : v ≠ u := fun h => hnv (h ▸ List.mem_cons_self _ _)
      have hnv2 : v ∉ a.visited_nodes := fun h => hnv (List.mem_cons.mpr (Or.inr h))
      by_cases hchg : S.dist v = a.dist v
      · rw [hchg] at hfin ⊢
        have hFm := hact.hF v hnv2 hfin
        have hne : (a.dist v, v) ≠ (dk, u) := fun hcontra =>
          hvne_u (congrArg Prod.snd hcontra)
        rw [hpqeq]
        exact List.mem_append_left _ (hrest_of_ne _ hFm hne)
      · rcases hchar v with ⟨h1, _⟩ | ⟨_, p2, _, _, _⟩
        · exact absurd h1 hchg
        · rw [p2]
          exact hentry v hchg
    · intro w hw
      rw [hSvis] at hw
      rcases List.mem_cons.mp hw with rfl | hw2
      · rw [hufrozen.1, hman]
      · rw [(hfrozen w hw2).1]
        exact hact.hU w hw2
    · intro w hw
      rw [hSvis] at hw
      rcases List.mem_cons.mp hw with rfl | hw2
      · exact hgrid
      · exact hact.hUg w hw2
    · intro q hq w hw
      rw [hSvis] at hw
      rw [hpqeq] at hq
      rcases List.mem_append.mp hq with hq2 | hq2
      · rcases List.mem_cons.mp hw with rfl | hw2
        · rw [hufrozen.1, ← heqd]
          exact hmin q (hrest_sub q hq2)
        · rw [(hfrozen w hw2).1]
          exact hact.hM q (hrest_sub q hq2) w hw2
      · rw [(hprops q hq2).1]
        rcases List.mem_cons.mp hw with rfl | hw2
        · rw [hufrozen.1]
          exact le_self_add
        · rw [(hfrozen w hw2).1]
          refine le_trans (hact.hM (dk, u) hpopmem w hw2) ?_
          show dk ≤ a.dist u + 1
          rw [heqd]
          exact le_self_add
    · rcases hact.hH with h | h
      · rw [hSvis]
        exact Or.inl (List.mem_cons.mpr (Or.inr h))
      · by_cases h0 : ((0 : ℕ∞), ((0 : ℤ), (0 : ℤ))) = (dk, u)
        · have hsu : ((0 : ℤ), (0 : ℤ)) = u := congrArg Prod.snd h0
          rw [hSvis]
          exact Or.inl (List.mem_cons.mpr (Or.inl hsu))
        · rw [hpqeq]
          exact Or.inr (List.mem_append_left _ (hrest_of_ne _ h h0))

theorem gridInv_step (R C : ℕ) (hR : 1 ≤ R) (hC : 1 ≤ C) (a : Algo Pos)
    (inv : GridInv R C a) : GridInv R C (step (gridGraph R C) a).1 := by
  by_cases hcT : a.is_complete = true
  · rw [step_of_complete _ a hcT]
    obtain ⟨hD1, hD2⟩ := inv.hDone hcT
    exact
      { hstart := inv.hstart, hend := inv.hend, hds := inv.hds, hps := inv.hps
        hB := inv.hB, hB3 := inv.hB3, hCl := inv.hCl, hC := inv.hC
        hL := inv.hL, hG := inv.hG, hG1 := fun _ => rfl
        hAct := fun h => Bool.noConfusion h
        hDone := fun _ => ⟨hD1, hD2⟩ }
  have hc : a.is_complete = false := by revert hcT; cases a.is_complete <;> simp
  by_cases hpqE : a.priority_queue = []
  · exact absurd hpqE (inv_pq_ne_nil R C hR hC a inv hc)
  obtain ⟨e, t, hpq⟩ := List.exists_cons_of_ne_nil hpqE
  have hrest_sub : ∀ q ∈ (popMin e t).2, q ∈ a.priority_queue := by
    intro q hq
    rw [hpq]
    exact popMin_rest_subset e t q hq
  have hact := inv.hAct hc
  have hpf0 : a.path_found = false := inv_pf_false R C a inv hc
  by_cases hd : a.dist (popMin e t).1.2 < (popMin e t).1.1
  · -- stale pop: only the queue shrinks
    rw [step_stale _ a e t hpq hc hd]
    refine
      { hstart := inv.hstart, hend := inv.hend, hds := inv.hds, hps := inv.hps
        hB := fun q hq => inv.hB q (hrest_sub q hq)
        hB3 := fun q hq => inv.hB3 q (hrest_sub q hq)
        hCl := fun q hq => inv.hCl q (hrest_sub q hq)
        hC := inv.hC, hL := inv.hL, hG := inv.hG, hG1 := inv.hG1
        hAct := ?_
        hDone := fun h => absurd (show a.is_complete = true from h) (by simp [hc]) }
    intro _
    refine
      { hE := hact.hE, hU := hact.hU, hUg := hact.hUg
        hF := ?_
        hM := fun q hq => hact.hM q (hrest_sub q hq)
        hH := ?_ }
    · intro v hnv hfin
      have hFm := hact.hF v hnv hfin
      refine mem_popMin_rest_of_ne e t _ (by rw [← hpq]; exact hFm) ?_
      intro heq2
      have hv2 : v = (popMin e t).1.2 := congrArg Prod.snd heq2
      have hd2 : a.dist v = (popMin e t).1.1 := congrArg Prod.fst heq2
      rw [hv2] at hd2
      rw [hd2] at hd
      exact lt_irrefl _ hd
    · rcases hact.hH with h | h
      · exact Or.inl h
      · refine Or.inr (mem_popMin_rest_of_ne e t _ (by rw [← hpq]; exact h) ?_)
        intro heq2
        have hs2 : ((0 : ℤ), (0 : ℤ)) = (popMin e t).1.2 := congrArg Prod.snd heq2
        have hd0 : (0 : ℕ∞) = (popMin e t).1.1 := congrArg Prod.fst heq2
        rw [← hs2, inv.hds, ← hd0] at hd
        exact absurd hd (by simp)
  by_cases hv : (popMin e t).1.2 ∈ a.visited_nodes
  · -- already-visited pop: only the queue shrinks
    rw [step_seen _ a e t hpq hc hd hv]
    refine
      { hstart := inv.hstart, hend := inv.hend, hds := inv.hds, hps := inv.hps
        hB := fun q hq => inv.hB q (hrest_sub q hq)
        hB3 := fun q hq => inv.hB3 q (hrest_sub q hq)
        hCl := fun q hq => inv.hCl q (hrest_sub q hq)
        hC := inv.hC, hL := inv.hL, hG := inv.hG, hG1 := inv.hG1
        hAct := ?_
        hDone := fun h => absurd (show a.is_complete = true from h) (by simp [hc]) }
    intro _
    refine
      { hE := hact.hE, hU := hact.hU, hUg := hact.hUg
        hF := ?_
        hM := fun q hq => hact.hM q (hrest_sub q hq)
        hH := ?_ }
    · intro v hnv hfin
      have hFm := hact.hF v hnv hfin
      refine mem_popMin_rest_of_ne e t _ (by rw [← hpq]; exact hFm) ?_
      intro heq2
      have hv2 : v = (popMin e t).1.2 := congrArg Prod.snd heq2
      exact hnv (hv2 ▸ hv)
    · rcases hact.hH with h | h
      · exact Or.inl h
      · by_cases heq2 : ((0 : ℕ∞), ((0 : ℤ), (0 : ℤ))) = (popMin e t).1
        · have hs2 : ((0 : ℤ), (0 : ℤ)) = (popMin e t).1.2 := congrArg Prod.snd heq2
          exact Or.inl (hs2 ▸ hv)
        · exact Or.inr (mem_popMin_rest_of_ne e t _ (by rw [← hpq]; exact h) heq2)
  obtain ⟨heqd, hman, hgrid⟩ := fresh_pop_dist R C hR hC a inv hc e t hpq hd hv
  have hdufin : a.dist (popMin e t).1.2 ≠ ⊤ := by
    rw [hman]
    exact ENat.coe_ne_top _
  have hpopmem : (popMin e t).1 ∈ a.priority_queue := by
    rw [hpq]
    exact popMin_fst_mem e t
  have hmin : ∀ q ∈ a.priority_queue, (popMin e t).1.1 ≤ q.1 := by
    intro q hq
    rw [hpq] at hq
    exact popMin_min e t q hq
  by_cases he : (popMin e t).1.2 = a.end_node
  · -- fresh pop of the end node: reconstruction
    rw [step_fresh_end _ a e t hpq hc hd hv he]
    set a3 : Algo Pos :=
      { visitNode a (popMin e t).1.2 (popMin e t).2 with
        path_found := true, is_complete := true, is_running := false } with ha3
    have h3dist : a3.dist = a.dist := visitNode_dist a _ _
    have h3prev : a3.prev = a.prev := visitNode_prev a _ _
    have h3pq : a3.priority_queue = (popMin e t).2 := visitNode_pq a _ _
    have h3vis : a3.visited_nodes = (popMin e t).1.2 :: a.visited_nodes :=
      visitNode_visited a _ _
    have h3end : a3.end_node = a.end_node := visitNode_end a _ _
    have h3start : a3.start_node = a.start_node := visitNode_start a _ _
    have hrdist : (reconstructPath (gridGraph R C) a3).dist = a.dist := by
      rw [reconstructPath_dist, h3dist]
    have hrprev : (reconstructPath (gridGraph R C) a3).prev = a.prev := by
      rw [reconstructPath_prev, h3prev]
    have hrpq : (reconstructPath (gridGraph R C) a3).priority_queue =
        (popMin e t).2 := by
      rw [reconstructPath_pq, h3pq]
    have hrvis : (reconstructPath (gridGraph R C) a3).visited_nodes =
        (popMin e t).1.2 :: a.visited_nodes := by
      rw [reconstructPath_visited, h3vis]
    have hrend : (reconstructPath (gridGraph R C) a3).end_node = a.end_node := by
      rw [reconstructPath_end, h3end]
    have hrstart : (reconstructPath (gridGraph R C) a3).start_node =
        a.start_node := by
      rw [reconstructPath_start, h3start]
    have hrpf : (reconstructPath (gridGraph R C) a3).path_found = true := by
      rw [reconstructPath_found]
    have hrcomp : (reconstructPath (gridGraph R C) a3).is_complete = true := by
      rw [reconstructPath_complete]
    have hmanend : manhattan ((R : ℤ) - 1, (C : ℤ) - 1) = (R - 1) + (C - 1) := by
      unfold manhattan
      dsimp only
      omega
    have hdend : a.dist a.end_node = (((R - 1) + (C - 1) : ℕ) : ℕ∞) := by
      rw [← he, hman, he, inv.hend, hmanend]
    have hlen : (pathChain a.prev ((gridGraph R C).nodes.length + 1)
        (some a.end_node)).length = (R - 1) + (C - 1) + 1 := by
      refine pathChain_length_of_dist a.dist a.prev ((0 : ℤ), (0 : ℤ))
        inv.hds inv.hps ?_ ((R - 1) + (C - 1)) a.end_node hdend _ ?_
      · intro v hfin
        rcases inv.hC v hfin with h | ⟨u0, h1, h2, _, h4⟩
        · exact Or.inl h
        · exact Or.inr ⟨u0, h1, h2, h4⟩
      · show (R - 1) + (C - 1) < (gridNodes R C).length + 1
        rw [gridNodes_length]
        have := grid_size_bound R C hR hC
        omega
    have hplen : (reconstructPath (gridGraph R C) a3).path_length =
        (R - 1) + (C - 1) := by
      rw [reconstructPath_length (gridGraph R C) a3 rfl]
      have hch : pathChain a3.prev ((gridGraph R C).nodes.length + 1)
          (some a3.end_node) = pathChain a.prev
          ((gridGraph R C).nodes.length + 1) (some a.end_node) := by
        rw [h3prev, h3end]
      rw [hch, hlen]
      omega
    refine
      { hstart := by rw [hrstart]; exact inv.hstart
        hend := by rw [hrend]; exact inv.hend
        hds := by rw [show (reconstructPath (gridGraph R C) a3).dist = a.dist from hrdist]; exact inv.hds
        hps := by rw [show (reconstructPath (gridGraph R C) a3).prev = a.prev from hrprev]; exact inv.hps
        hB := ?_, hB3 := ?_, hCl := ?_, hC := ?_, hL := ?_
        hG := ?_, hG1 := fun _ => hrcomp
        hAct := fun h => absurd (hrcomp ▸ h) (by simp)
        hDone := fun _ => ⟨hrpf, hplen⟩ }
    · intro q hq
      rw [hrpq] at hq
      rw [hrdist]
      exact inv.hB q (hrest_sub q hq)
    · intro q hq
      rw [hrpq] at hq
      exact inv.hB3 q (hrest_sub q hq)
    · intro q hq
      rw [hrpq] at hq
      exact inv.hCl q (hrest_sub q hq)
    · intro v hfin
      rw [hrdist] at hfin ⊢
      rw [hrprev, hrvis]
      rcases inv.hC v hfin with h | ⟨u0, h1, h2, h3, h4⟩
      · exact Or.inl h
      · exact Or.inr ⟨u0, h1, h2, List.mem_cons.mpr (Or.inr h3), h4⟩
    · intro v
      rw [hrdist]
      exact inv.hL v
    · rw [hrpf, hrend, hrvis]
      constructor
      · intro _
        rw [← he]
        exact List.mem_cons_self _ _
      · intro _
        rfl
  · -- fresh pop of a non-end node: visit it and relax its neighbors
    rw [step_fresh_relax _ a e t hpq hc hd hv he]
    show GridInv R C (relaxList (popMin e t).1.2
      (gridNeighbors R C (popMin e t).1.2)
      (visitNode a (popMin e t).1.2 (popMin e t).2))
    refine gridInv_relax R C hR hC a inv hc (popMin e t).1.2 (popMin e t).1.1
      (popMin e t).2 hpopmem hrest_sub ?_ hmin hv heqd hman hgrid he
    intro q hq hne
    refine mem_popMin_rest_of_ne e t q (by rw [← hpq]; exact hq) ?_
    intro hq2
    exact hne (by rw [hq2])

theorem gridInv_mkAlgo (R C : ℕ) (hR : 1 ≤ R) (hC : 1 ≤ C) :
    GridInv R C (mkAlgo ((0 : ℤ), (0 : ℤ)) ((R : ℤ) - 1, (C : ℤ) - 1)
      (fun _ => (⊤ : ℕ∞)) (fun _ => none) (gridStates R C)) := by
  set a0 := mkAlgo ((0 : ℤ), (0 : ℤ)) ((R : ℤ) - 1, (C : ℤ) - 1)
    (fun _ => (⊤ : ℕ∞)) (fun _ => none) (gridStates R C) with ha0
  have hdist : ∀ v : Pos,
      a0.dist v = if v = ((0 : ℤ), (0 : ℤ)) then 0 else ⊤ := fun _ => rfl
  have hpq : a0.priority_queue = [((0 : ℕ∞), ((0 : ℤ), (0 : ℤ)))] := rfl
  have hvis : a0.visited_nodes = ([] : List Pos) := rfl
  have hpf : a0.path_found = false := rfl
  have hcomp : a0.is_complete = false := rfl
  have hgrid0 : inGrid R C ((0 : ℤ), (0 : ℤ)) := by
    unfold inGrid
    exact ⟨le_refl _, by omega, le_refl _, by omega⟩
  refine
    { hstart := rfl, hend := rfl
      hds := by rw [hdist, if_pos rfl]
      hps := rfl
      hB := ?_, hB3 := ?_, hCl := ?_, hC := ?_, hL := ?_
      hG := ?_, hG1 := ?_, hAct := ?_, hDone := ?_ }
  · intro q hq
    rw [hpq] at hq
    obtain rfl := List.mem_singleton.mp hq
    simp [hdist]
  · intro q hq
    rw [hpq] at hq
    obtain rfl := List.mem_singleton.mp hq
    simp
  · intro q hq
    rw [hpq] at hq
    obtain rfl := List.mem_singleton.mp hq
    exact hgrid0
  · intro v hfin
    rw [hdist] at hfin
    by_cases hv0 : v = ((0 : ℤ), (0 : ℤ))
    · exact Or.inl hv0
    · rw [if_neg hv0] at hfin
      exact absurd rfl hfin
  · intro v
    rw [hdist]
    by_cases hv0 : v = ((0 : ℤ), (0 : ℤ))
    · rw [if_pos hv0, hv0]
      have hm0 : manhattan ((0 : ℤ), (0 : ℤ)) = 0 := rfl
      rw [hm0]
      simp
    · rw [if_neg hv0]
      exact le_top
  · rw [hpf, hvis]
    simp
  · intro h
    rw [hpf] at h
    exact Bool.noConfusion h
  · intro _
    refine { hE := ?_, hF := ?_, hU := ?_, hUg := ?_, hM := ?_, hH := ?_ }
    · intro w hw
      rw [hvis] at hw
      exact absurd hw (List.not_mem_nil _)
    · intro v hnv hfin
      rw [hdist] at hfin
      by_cases hv0 : v = ((0 : ℤ), (0 : ℤ))
      · subst hv0
        rw [hdist, if_pos rfl, hpq]
        exact List.mem_singleton.mpr rfl
      · rw [if_neg hv0] at hfin
        exact absurd rfl hfin
    · intro w hw
      rw [hvis] at hw
      exact absurd hw (List.not_mem_nil _)
    · intro w hw
      rw [hvis] at hw
      exact absurd hw (List.not_mem_nil _)
    · intro q hq w hw
      rw [hvis] at hw
      exact absurd hw (List.not_mem_nil _)
    · rw [hpq]
      exact Or.inr (List.mem_singleton.mpr rfl)
  · intro h
    rw [hcomp] at h
    exact Bool.noConfusion h

theorem gridInv_set_running (R C : ℕ) (a : Algo Pos) (inv : GridInv R C a) :
    GridInv R C { a with is_running := true } :=
  { hstart := inv.hstart, hend := inv.hend, hds := inv.hds, hps := inv.hps
    hB := inv.hB, hB3 := inv.hB3, hCl := inv.hCl, hC := inv.hC, hL := inv.hL
    hG := inv.hG, hG1 := inv.hG1
    hAct := fun h =>
      { hE := (inv.hAct h).hE, hF := (inv.hAct h).hF, hU := (inv.hAct h).hU
        hUg := (inv.hAct h).hUg, hM := (inv.hAct h).hM, hH := (inv.hAct h).hH }
    hDone := inv.hDone }

theorem gridInv_runCompleteLoop (R C : ℕ) (hR : 1 ≤ R) (hC : 1 ≤ C) :
    ∀ (fuel : ℕ) (a : Algo Pos), GridInv R C a →
      GridInv R C (runCompleteLoop (gridGraph R C) fuel a) := by
  intro fuel
  induction fuel with
  | zero =>
    intro a inv
    exact inv
  | succ n ih =>
    intro a inv
    show GridInv R C (if a.is_complete then a else
      if (step (gridGraph R C) a).2.1 then
        runCompleteLoop (gridGraph R C) n (step (gridGraph R C) a).1
      else (step (gridGraph R C) a).1)
    by_cases hcc : a.is_complete = true
    · rw [if_pos hcc]
      exact inv
    · rw [if_neg hcc]
      by_cases hcont : (step (gridGraph R C) a).2.1 = true
      · rw [if_pos hcont]
        exact ih _ (gridInv_step R C hR hC a inv)
      · rw [if_neg hcont]
        exact gridInv_step R C hR hC a inv

/-- C1: on the barrier-free `R × C` grid graph with precomputed neighbors,
start `(0,0)` and end `(R-1, C-1)`, driving the engine to completion
terminates (some fuel completes the `run_complete` loop), and every completed
run has `path_found = true` and `path_length` equal to the Manhattan distance
`(R-1)+(C-1)`; the visit counter never exceeds the `R * C` node count. -/
theorem grid_run_shortest_path (R C : ℕ) (hR : 1 ≤ R) (hC : 1 ≤ C) :
    (∃ fuel, (gridRun R C fuel).is_complete = true) ∧
    (∀ fuel, (gridRun R C fuel).is_complete = true →
      (gridRun R C fuel).path_found = true ∧
      (gridRun R C fuel).path_length = (R - 1) + (C - 1)) ∧
    (∀ fuel, (gridRun R C fuel).visited_count ≤ R * C) := by
  have hgrid0 : inGrid R C ((0 : ℤ), (0 : ℤ)) := by
    unfold inGrid
    exact ⟨le_refl _, by omega, le_refl _, by omega⟩
  have hs : ((0 : ℤ), (0 : ℤ)) ∈ (gridGraph R C).nodes :=
    (mem_gridNodes R C _).mpr hgrid0
  have hinv := countInv_mkAlgo (gridGraph R C) ((0 : ℤ), (0 : ℤ))
    ((R : ℤ) - 1, (C : ℤ) - 1) (fun _ => (⊤ : ℕ∞)) (fun _ => none)
    (gridStates R C) hs
  have hinv2 : countInv (gridGraph R C)
      { mkAlgo ((0 : ℤ), (0 : ℤ)) ((R : ℤ) - 1, (C : ℤ) - 1)
          (fun _ => (⊤ : ℕ∞)) (fun _ => none) (gridStates R C) with
        is_running := true } := hinv
  refine ⟨⟨stepMeasure (gridGraph R C)
      (mkAlgo ((0 : ℤ), (0 : ℤ)) ((R : ℤ) - 1, (C : ℤ) - 1)
        (fun _ => (⊤ : ℕ∞)) (fun _ => none) (gridStates R C)) + 1, ?_⟩,
    ?_, ?_⟩
  · exact runCompleteLoop_complete (gridGraph R C) (gridGraph_closed R C) _ _
      hinv2 (le_refl _)
  · intro fuel hcomp
    have hinvG := gridInv_runCompleteLoop R C hR hC fuel _
      (gridInv_set_running R C _ (gridInv_mkAlgo R C hR hC))
    exact hinvG.hDone hcomp
  · intro fuel
    have hcount := countInv_count_le (gridGraph R C) _
      (countInv_runCompleteLoop (gridGraph R C) (gridGraph_closed R C) fuel _
        hinv2)
    calc (gridRun R C fuel).visited_count
        ≤ (gridGraph R C).nodes.length := hcount
      _ = R * C := gridNodes_length R C

set_option maxHeartbeats 4000000 in
/-- Witness for C1: the concrete 3×3 scenario with fuel 50 — the run
completes, finds the path, reports length 4 = (3-1)+(3-1), and visits at
most 9 nodes. -/
theorem grid_run_shortest_path_witness :
    (gridRun 3 3 50).is_complete = true ∧
    ((gridRun 3 3 50).path_found = true ∧
      (gridRun 3 3 50).path_length = (3 - 1) + (3 - 1)) ∧
    (gridRun 3 3 50).visited_count ≤ 3 * 3 := by
  refine ⟨by decide, ?_, ?_⟩
  · exact (grid_run_shortest_path 3 3 (by decide) (by decide)).2.1 50 (by decide)
  · exact (grid_run_shortest_path 3 3 (by decide) (by decide)).2.2 50

end DijkstraSim
